import Mathlib

/-!
# Verification of the quantum-battleship-radar simulation core

A shallow embedding of the search/detection core of `streamlit_app.py`:
the board generator, the noisy sensor, and the single simulation loop that
advances the classical (random) searcher and the probability-guided
("quantum-inspired") searcher in lockstep.

Modelling conventions:
* Randomness is injected as a stream `r : ℕ → ℚ` of unit-interval draws,
  consumed sequentially at an explicit position counter, mirroring the
  single global `random` stream of the Python code.  `random.randint(0, n-1)`
  is modelled as flooring a unit draw scaled by `n`.
* `H×W` numpy arrays (the code always uses square `size × size` arrays) are
  flattened row-major into Lean lists, matching numpy's own row-major layout
  (`np.argmax` / `np.unravel_index` act on exactly this flattening).
* The classical searcher's `while True` rejection-sampling loop is modelled
  with explicit fuel; exhausting the fuel (`none`) models the Python loop
  not terminating on a degenerate random stream.
* Rationals stand in for Python floats; all arithmetic in the model is exact.
-/

namespace QBR

/-- A cell of the square grid, as a coordinate pair `(row, column)`. -/
abbrev Cell := ℕ × ℕ

/-- An injected random source: the `k`-th call to `random.random()` returns `r k`.
Genuine Python draws lie in `[0,1)`; theorems add that hypothesis where needed. -/
abbrev RSrc := ℕ → ℚ

/-- Model of `random.randint(0, size-1)` driven by one unit-interval draw:
scale and floor, clamped into range (the clamp is inert for draws in `[0,1)`). -/
def toIdx (size : ℕ) (q : ℚ) : ℕ :=
  min (⌊q * size⌋).toNat (size - 1)

/-- The row-major list of all cells of a `size × size` grid; this is the
population `[(i, j) for i in range(size) for j in range(size)]` of the code. -/
def cellsRM (size : ℕ) : List Cell :=
  (List.range size).flatMap fun i => (List.range size).map fun j => (i, j)

/-- Flat row-major index of a cell, as used by the numpy array layout. -/
def flat (size : ℕ) (c : Cell) : ℕ := c.1 * size + c.2

/-- Reading the flattened grid `b` at cell `(x, y)` (i.e. `board[x, y]`). -/
def boardGet (size : ℕ) (b : List Bool) (x y : ℕ) : Bool :=
  b.getD (x * size + y) false

/-- `noisy_sensor(board, x, y, fp, fn)` of the source: read the true occupancy,
consume one random draw, and flip the reading when the draw falls below the
matching error rate (`fn` for an occupied cell, `fp` for an empty one).
Returns the reading together with the advanced stream position. -/
def noisy_sensor (size : ℕ) (board : List Bool) (x y : ℕ) (fp fn : ℚ)
    (r : RSrc) (k : ℕ) : Bool × ℕ :=
  let actual := boardGet size board x y
  if actual then
    if r k < fn then (false, k + 1) else (true, k + 1)
  else
    if r k < fp then (true, k + 1) else (false, k + 1)

/-! ## Board generation

`random.sample(population, k)` is Python standard library; it is modelled by
selection sampling from the population (draw an index among the remaining
elements, remove it, repeat), which realises its contract: `k` distinct
elements, drawn without replacement, `ValueError` when `k` is out of range. -/

/-- Selection sampling: draw `n` distinct elements from `pop`, consuming one
stream draw per selection.  Models `random.sample`'s sampling process. -/
def sampleCells (r : RSrc) : ℕ → List Cell → ℕ → List Cell × ℕ
  | 0, _, k => ([], k)
  | n + 1, pop, k =>
    let i := min (⌊r k * pop.length⌋).toNat (pop.length - 1)
    let c := pop.getD i (0, 0)
    let rest := sampleCells r n (pop.eraseIdx i) (k + 1)
    (c :: rest.1, rest.2)

/-- The `ship_positions = random.sample([(i,j) ...], num_ships)` draw. -/
def ship_positions (size n : ℕ) (r : RSrc) (k : ℕ) : List Cell × ℕ :=
  sampleCells r n (cellsRM size) k

/-- Marking loop `for (x, y) in ship_positions: board[x, y] = 1` over the
all-zero board `np.zeros((size, size))`. -/
def markShips (size : ℕ) (pos : List Cell) : List Bool :=
  pos.foldl (fun b c => b.set (flat size c) true) (List.replicate (size * size) false)

/-- The failure condition of board setup: `random.sample` raises `ValueError`
when the requested count is out of range; the spec calls this condition
`InvalidConfiguration`. -/
inductive GenError where
  /-- The target count is negative or exceeds the cell count. -/
  | invalidConfiguration
  deriving Repr, DecidableEq

/-- Board generation (lines 47–50 of the source): create the zero board and
mark `num_ships` sampled distinct cells.  `random.sample` raises `ValueError`
(the spec's `InvalidConfiguration`) unless `0 ≤ num_ships ≤ size*size`; the
exception propagates before the marking loop runs, so no cell is marked. -/
def generate_board (size : ℕ) (num_ships : ℤ) (r : RSrc) (k : ℕ) :
    Except GenError (List Bool × ℕ) :=
  if 0 ≤ num_ships ∧ num_ships ≤ ((size * size : ℕ) : ℤ) then
    let pos := ship_positions size num_ships.toNat r k
    .ok (markShips size pos.1, pos.2)
  else
    .error .invalidConfiguration

/-! ## The simulation loop -/

/-- State of the combined simulation after some number of loop iterations. -/
structure SimState where
  /-- `tried_c`: the classical searcher's set of already-probed cells
  (most recent first). -/
  tried_c : List Cell
  /-- `c_found`: the classical searcher's recorded readings, flattened. -/
  c_found : List Bool
  /-- `q_found`: the guided searcher's recorded readings, flattened. -/
  q_found : List Bool
  /-- `prob`: the guided searcher's belief grid, flattened row-major. -/
  prob : List ℚ
  /-- `guesses_c`: classical guess counter. -/
  guesses_c : ℕ
  /-- `guesses_q`: guided guess counter. -/
  guesses_q : ℕ
  /-- Position of the next unconsumed random draw. -/
  pos : ℕ
  deriving Repr, DecidableEq

/-- The initial state: empty tried-set, all-zero found grids, uniform belief
`1/(size*size)`, counters zero (lines 60–67 of the source). -/
def initState (size : ℕ) : SimState :=
  { tried_c := []
    c_found := List.replicate (size * size) false
    q_found := List.replicate (size * size) false
    prob := List.replicate (size * size) ((1 : ℚ) / (size * size))
    guesses_c := 0
    guesses_q := 0
    pos := 0 }

/-- The classical `while True` rejection loop: draw a coordinate pair
(`randint` twice), retry while it is already in `tried_c`.  `fuel` bounds the
number of attempts; `none` models the Python loop never finding a fresh cell. -/
def findFresh (size : ℕ) (r : RSrc) (tried : List Cell) :
    ℕ → ℕ → Option (Cell × ℕ)
  | 0, _ => none
  | fuel + 1, k =>
    let c : Cell := (toIdx size (r k), toIdx size (r (k + 1)))
    if c ∈ tried then findFresh size r tried fuel (k + 2)
    else some (c, k + 2)

/-- Is flat index `idx` inside the `3×3` neighbourhood (clipped at the grid
edges) of the probed cell `(xq, yq)`?  Mirrors the two `range(max(0, ·-1),
min(size, ·+2))` loops; note `xq - 1` is ℕ-truncated subtraction, which equals
Python's `max(0, xq-1)`. -/
def inNbhd (size xq yq idx : ℕ) : Prop :=
  xq - 1 ≤ idx / size ∧ idx / size < min size (xq + 2) ∧
    yq - 1 ≤ idx % size ∧ idx % size < min size (yq + 2)

instance (size xq yq idx : ℕ) : Decidable (inNbhd size xq yq idx) := by
  unfold inNbhd; infer_instance

/-- The hit-reinforcement update: `prob[i, j] += 0.3` for every cell of the
clipped `3×3` neighbourhood of the probed cell. -/
def boostList (size xq yq : ℕ) (l : List ℚ) : List ℚ :=
  l.mapIdx fun idx q => if inNbhd size xq yq idx then q + 3 / 10 else q

/-- First index of the maximal element (auxiliary scan):
`bi`/`bq` are the current best index and value, `i` the index of the head. -/
def argmaxAux : List ℚ → ℕ → ℕ → ℚ → ℕ
  | [], _, bi, _ => bi
  | q :: rest, i, bi, bq =>
    if bq < q then argmaxAux rest (i + 1) i q else argmaxAux rest (i + 1) bi bq

/-- `np.argmax` on the flattened belief grid: the index of the first
occurrence of the maximum in row-major order. -/
def argmaxIdx : List ℚ → ℕ
  | [] => 0
  | q :: rest => argmaxAux rest 1 0 q

/-- `np.sum(found * board)` for 0/1 grids: the number of flat positions at
which both the recorded reading and the true board are set. -/
def hitCount (size : ℕ) (found board : List Bool) : ℕ :=
  ((Finset.range (size * size)).filter
    fun i => found.getD i false = true ∧ board.getD i false = true).card

/-- All data produced by one iteration of the simulation loop (lines 71–98):
the classical probe and reading, the guided selection and reading, the
belief grid after boost-and-zero, the renormalisation divisor, and the
successor state. -/
structure StepInfo where
  /-- The fresh cell the classical searcher probes. -/
  cCell : Cell
  /-- The classical sensor reading at `cCell`. -/
  cRead : Bool
  /-- Flat index of the guided searcher's selected (max-belief) cell. -/
  qIdx : ℕ
  /-- The guided sensor reading at the selected cell. -/
  qRead : Bool
  /-- The belief grid after the conditional boost and the zeroing of the
  probed cell, i.e. the grid whose sum is the renormalisation divisor. -/
  preProb : List ℚ
  /-- The renormalisation divisor `np.sum(prob)`. -/
  denom : ℚ
  /-- The state after the iteration. -/
  next : SimState
  deriving Repr, DecidableEq

/-- The loop body after the classical rejection loop has produced the fresh
cell `c` with next stream position `k1` (lines 78–92): classical sensing and
recording, guided max-belief selection, guided sensing and recording,
conditional neighbourhood boost, zeroing of the probed cell, renormalisation. -/
def stepOf (size : ℕ) (board : List Bool) (fp fn : ℚ) (r : RSrc)
    (s : SimState) (c : Cell) (k1 : ℕ) : StepInfo :=
  let resc := noisy_sensor size board c.1 c.2 fp fn r k1
  let c_found' := s.c_found.set (flat size c) resc.1
  let qidx := argmaxIdx s.prob
  let xq := qidx / size
  let yq := qidx % size
  let resq := noisy_sensor size board xq yq fp fn r resc.2
  let q_found' := s.q_found.set (xq * size + yq) resq.1
  let prob1 := if resq.1 then boostList size xq yq s.prob else s.prob
  let prob2 := prob1.set (xq * size + yq) 0
  let t := prob2.sum
  let prob3 := prob2.map fun q => q / t
  { cCell := c
    cRead := resc.1
    qIdx := qidx
    qRead := resq.1
    preProb := prob2
    denom := t
    next :=
      { tried_c := c :: s.tried_c
        c_found := c_found'
        q_found := q_found'
        prob := prob3
        guesses_c := s.guesses_c + 1
        guesses_q := s.guesses_q + 1
        pos := resq.2 } }

/-- One iteration of the `for step in range(total_steps)` body (lines 72–92):
the classical rejection-sampled probe followed by the rest of the body.
`none` when the rejection loop exhausts its fuel. -/
def stepInfo (size : ℕ) (board : List Bool) (fp fn : ℚ) (r : RSrc)
    (fuel : ℕ) (s : SimState) : Option StepInfo :=
  (findFresh size r s.tried_c fuel s.pos).map fun p =>
    stepOf size board fp fn r s p.1 p.2

/-- The successor state of one loop iteration. -/
def simStep (size : ℕ) (board : List Bool) (fp fn : ℚ) (r : RSrc)
    (fuel : ℕ) (s : SimState) : Option SimState :=
  (stepInfo size board fp fn r fuel s).map (·.next)

/-- The loop's early-exit test (line 101): both searchers' recorded hits on
true target cells have reached `num_ships`. -/
def bothDone (size num_ships : ℕ) (board : List Bool) (s : SimState) : Bool :=
  num_ships ≤ hitCount size s.c_found board ∧
    num_ships ≤ hitCount size s.q_found board

/-- The `for step in range(n)` loop with the `break` test at the end of each
body (lines 71–102). -/
def runLoop (size num_ships : ℕ) (board : List Bool) (fp fn : ℚ) (r : RSrc)
    (fuel : ℕ) : ℕ → SimState → Option SimState
  | 0, s => some s
  | n + 1, s =>
    (simStep size board fp fn r fuel s).bind fun s' =>
      if bothDone size num_ships board s' then some s'
      else runLoop size num_ships board fp fn r fuel n s'

/-- The whole simulation: `total_steps = size * size` iterations starting
from the initial state. -/
def runSim (size num_ships : ℕ) (board : List Bool) (fp fn : ℚ) (r : RSrc)
    (fuel : ℕ) : Option SimState :=
  runLoop size num_ships board fp fn r fuel (size * size) (initState size)

/-- Iterating the loop body `k` times with the `break` test ignored: the
states `runIter ... k (initState size)` enumerate every state the real loop
passes through (the loop with `break` traverses a prefix of them). -/
def runIter (size : ℕ) (board : List Bool) (fp fn : ℚ) (r : RSrc)
    (fuel : ℕ) : ℕ → SimState → Option SimState
  | 0, s => some s
  | n + 1, s => (simStep size board fp fn r fuel s).bind (runIter size board fp fn r fuel n)

/-! ## Derived notions used by the specification -/

/-- The number of `true` cells of a flattened grid (used to state the board
invariant "exactly `num_targets` cells are true"). -/
def trueCount (size : ℕ) (b : List Bool) : ℕ :=
  ((Finset.range (size * size)).filter fun i => b.getD i false = true).card

/-- The guided searcher's belief/record update under zero noise, as a pure
function of its own state: sensor readings equal the true occupancy, so the
guided part of the loop body does not depend on the random stream. -/
def gStep (size : ℕ) (board : List Bool) :
    List ℚ × List Bool → List ℚ × List Bool := fun s =>
  let qidx := argmaxIdx s.1
  let xq := qidx / size
  let yq := qidx % size
  let read := boardGet size board xq yq
  let q_found' := s.2.set (xq * size + yq) read
  let prob1 := if read then boostList size xq yq s.1 else s.1
  let prob2 := prob1.set (xq * size + yq) 0
  let t := prob2.sum
  (prob2.map fun q => q / t, q_found')

/-- `k` zero-noise guided iterations from the uniform initial belief. -/
def gIter (size : ℕ) (board : List Bool) : ℕ → List ℚ × List Bool
  | 0 => ((initState size).prob, (initState size).q_found)
  | k + 1 => gStep size board (gIter size board k)

/-- A random source is fair for grid side `size` when every coordinate pair
keeps reappearing among the `randint`-pair draws (which the simulation
always makes at even stream positions): this is the almost-sure behaviour
of a genuine random stream, and the condition under which the classical
rejection loop always finds a fresh cell. -/
def FairStream (size : ℕ) (r : RSrc) : Prop :=
  ∀ m x y, x < size → y < size →
    ∃ j, m ≤ j ∧ toIdx size (r (2 * j)) = x ∧ toIdx size (r (2 * j + 1)) = y

/-- A concrete fair stream: the pair at even draw `2*j, 2*j+1` encodes cell
number `j mod size*size`, so the drawn cells cycle through the whole grid. -/
def cycleStream (size : ℕ) : RSrc := fun k =>
  if k % 2 = 0 then (((k / 2 % (size * size)) / size : ℕ) : ℚ) / size
  else (((k / 2 % (size * size)) % size : ℕ) : ℚ) / size

/-! ## Concrete boards and streams used as test vectors

These package the runs used by witnesses and counterexamples.  All use zero
noise, so every sensor reading equals the true occupancy (draws are
nonnegative). -/

/-- A `2×2` board with one ship at `(0,0)`. -/
def board2a : List Bool := [true, false, false, false]

/-- A `2×2` board with one ship at `(1,1)`. -/
def board2b : List Bool := [false, false, false, true]

/-- A `3×3` board with four ships at `(0,0), (0,1), (1,0), (1,1)`. -/
def board3 : List Bool :=
  [true, true, false, true, true, false, false, false, false]

/-- The `5×5` scenario board of the spec: ships at `(0,0), (2,2), (4,4)`. -/
def board5 : List Bool := (List.range 25).map fun i => i = 0 ∨ i = 12 ∨ i = 24

/-- Stream for `board2a`: classical draws `(0,1), (1,0), (1,1), (0,0)`, four
draws per iteration (cell pair then the two sensor draws). -/
def stream2a : RSrc := fun k =>
  [0, 1/2, 0, 0, 1/2, 0, 0, 0, 1/2, 1/2, 0, 0, 0, 0, 0, 0].getD k 0

/-- Stream for `board2b`: classical draws `(1,1), (0,0), (0,1), (1,0)`. -/
def stream2b : RSrc := fun k =>
  [1/2, 1/2, 0, 0, 0, 0, 0, 0, 0, 1/2, 0, 0, 1/2, 0, 0, 0].getD k 0

/-- Stream for `board3`: classical draws `(2,2), (2,1), (2,0), (1,2), (0,2)`. -/
def stream3 : RSrc := fun k =>
  [2/3, 2/3, 0, 0, 2/3, 1/3, 0, 0, 2/3, 0, 0, 0,
   1/3, 2/3, 0, 0, 0, 2/3, 0, 0].getD k 0

/-- Stream for `board5`: the classical draws walk the cells in row-major
order (cell `k/4` at iteration `k/4`), and every sensor draw is `0`. -/
def stream5 : RSrc := fun k =>
  if k % 4 = 0 then ((k / 4 / 5 : ℕ) : ℚ) / 5
  else if k % 4 = 1 then ((k / 4 % 5 : ℕ) : ℚ) / 5
  else 0

/-! ## The noisy sensor (claim C6) -/

/-- `noisy_sensor` consumes exactly one draw and flips the true occupancy
exactly when the draw falls below the matching error rate. -/
theorem noisy_sensor_eq (size : ℕ) (board : List Bool) (x y : ℕ) (fp fn : ℚ)
    (r : RSrc) (k : ℕ) :
    noisy_sensor size board x y fp fn r k =
      ((if r k < (if boardGet size board x y then fn else fp)
        then !(boardGet size board x y) else boardGet size board x y), k + 1) := by
  cases h : boardGet size board x y
  · by_cases hc : r k < fp <;> simp [noisy_sensor, h, hc]
  · by_cases hc : r k < fn <;> simp [noisy_sensor, h, hc]

/-- Under zero noise and a genuine (nonnegative) draw, the sensor reports
the true occupancy. -/
theorem noisy_sensor_zero_noise (size : ℕ) (board : List Bool) (x y : ℕ)
    (r : RSrc) (k : ℕ) (h : 0 ≤ r k) :
    noisy_sensor size board x y 0 0 r k = (boardGet size board x y, k + 1) := by
  rw [noisy_sensor_eq]
  rw [if_neg (by simpa using not_lt.2 h)]

/-- C6: for every board, cell and rates, `noisy_sensor` returns the negation
of the true occupancy exactly when its single draw (consumed at position `k`,
leaving position `k+1`) falls below the matching error rate
(`fn` when the cell is occupied, `fp` when it is empty), and the true
occupancy otherwise; with both rates zero it returns the true occupancy. -/
theorem claim6_sensor_semantics (size : ℕ) (board : List Bool) (x y : ℕ)
    (fp fn : ℚ) (r : RSrc) (k : ℕ) :
    (noisy_sensor size board x y fp fn r k).2 = k + 1 ∧
    ((noisy_sensor size board x y fp fn r k).1 = !(boardGet size board x y) ↔
      r k < (if boardGet size board x y then fn else fp)) ∧
    (fp = 0 → fn = 0 → 0 ≤ r k →
      (noisy_sensor size board x y fp fn r k).1 = boardGet size board x y) := by
  refine ⟨by rw [noisy_sensor_eq], ?_, ?_⟩
  · rw [noisy_sensor_eq]
    cases boardGet size board x y <;> split <;> simp_all
  · rintro rfl rfl h
    rw [noisy_sensor_zero_noise size board x y r k h]

/-- Witness for C6 at a concrete input: the occupied cell `(0,0)` of
`board2a` at zero noise reads back as occupied. -/
theorem claim6_sensor_semantics_witness :
    (noisy_sensor 2 board2a 0 0 0 0 stream2a 4).1 = boardGet 2 board2a 0 0 :=
  (claim6_sensor_semantics 2 board2a 0 0 0 0 stream2a 4).2.2 rfl rfl
    (by with_unfolding_all decide)

/-! ## Invalid configurations (claim C7) -/

/-- C7: an out-of-range target count makes board generation fail with the
`InvalidConfiguration` condition immediately; no board is produced, so no
cell is ever marked. -/
theorem claim7_invalid_configuration (size : ℕ) (num_ships : ℤ) (r : RSrc)
    (k : ℕ) (h : num_ships < 0 ∨ ((size * size : ℕ) : ℤ) < num_ships) :
    generate_board size num_ships r k = .error .invalidConfiguration := by
  unfold generate_board
  rw [if_neg]
  rcases h with h | h
  · exact fun hc => absurd hc.1 (not_le.2 h)
  · exact fun hc => absurd hc.2 (not_le.2 h)

/-- Witness for C7: asking for 5 ships on a `2×2` grid fails. -/
theorem claim7_invalid_configuration_witness :
    generate_board 2 5 stream2a 0 = .error .invalidConfiguration :=
  claim7_invalid_configuration 2 5 stream2a 0 (Or.inr (by decide))

/-! ## The max-belief selection (first-occurrence argmax) -/

theorem argmaxAux_spec (l : List ℚ) :
    ∀ (rest : List ℚ) (i bi : ℕ) (bq : ℚ),
      rest = l.drop i → bi < i → bi < l.length → l.getD bi 0 = bq →
      (∀ j < i, l.getD j 0 ≤ bq) → (∀ j < bi, l.getD j 0 < bq) →
      argmaxAux rest i bi bq < l.length ∧
        (∀ j < l.length, l.getD j 0 ≤ l.getD (argmaxAux rest i bi bq) 0) ∧
        (∀ j < argmaxAux rest i bi bq, l.getD j 0 < l.getD (argmaxAux rest i bi bq) 0)
  | [], i, bi, bq, hrest, _, hbil, hbq, hmax, hstrict => by
    have hil : l.length ≤ i := by
      by_contra hlt
      push_neg at hlt
      have := List.drop_eq_getElem_cons hlt
      rw [this] at hrest
      exact absurd hrest.symm (List.cons_ne_nil _ _)
    refine ⟨by simpa [argmaxAux] using hbil, ?_, ?_⟩
    · intro j hj
      simp only [argmaxAux]
      rw [hbq]
      exact hmax j (lt_of_lt_of_le hj hil)
    · intro j hj
      simp only [argmaxAux] at hj ⊢
      rw [hbq]
      exact hstrict j hj
  | q :: rest, i, bi, bq, hrest, hbi, hbil, hbq, hmax, hstrict => by
    have hil : i < l.length := by
      by_contra hge
      push_neg at hge
      rw [List.drop_eq_nil_of_le hge] at hrest
      exact absurd hrest (List.cons_ne_nil _ _)
    have hdrop := List.drop_eq_getElem_cons hil
    rw [hdrop] at hrest
    have hpair := (List.cons.injEq _ _ _ _).mp hrest
    have hq : q = l[i] := hpair.1
    have hrest2 : rest = l.drop (i + 1) := hpair.2
    have hqd : l.getD i 0 = q := by
      rw [List.getD_eq_getElem l 0 hil, hq]
    simp only [argmaxAux]
    split
    · rename_i hlt
      exact argmaxAux_spec l rest (i + 1) i q hrest2 (Nat.lt_succ_self i) hil hqd
        (fun j hj => by
          rcases Nat.lt_succ_iff_lt_or_eq.mp hj with hj | rfl
          · exact le_of_lt (lt_of_le_of_lt (hmax j hj) hlt)
          · exact le_of_eq hqd)
        (fun j hj => lt_of_le_of_lt (hmax j hj) hlt)
    · rename_i hnlt
      push_neg at hnlt
      exact argmaxAux_spec l rest (i + 1) bi bq hrest2 (Nat.lt_succ_of_lt hbi) hbil hbq
        (fun j hj => by
          rcases Nat.lt_succ_iff_lt_or_eq.mp hj with hj | rfl
          · exact hmax j hj
          · rw [hqd]; exact hnlt)
        hstrict

/-- `argmaxIdx` returns the index of the first occurrence of the maximum of
the list: it is in range, its value dominates every entry, and every earlier
entry is strictly smaller. -/
theorem argmaxIdx_spec (l : List ℚ) (hne : l ≠ []) :
    argmaxIdx l < l.length ∧
      (∀ j < l.length, l.getD j 0 ≤ l.getD (argmaxIdx l) 0) ∧
      (∀ j < argmaxIdx l, l.getD j 0 < l.getD (argmaxIdx l) 0) := by
  match l, hne with
  | q :: rest, _ =>
    simp only [argmaxIdx]
    exact argmaxAux_spec (q :: rest) rest 1 0 q rfl Nat.one_pos (by simp) rfl
      (fun j hj => by interval_cases j; simp)
      (fun j hj => absurd hj (Nat.not_lt_zero j))

/-! ## Structural lemmas about one loop iteration -/

theorem toIdx_lt (size : ℕ) (h : 0 < size) (q : ℚ) : toIdx size q < size :=
  lt_of_le_of_lt (Nat.min_le_right _ _) (Nat.sub_lt h Nat.one_pos)

/-- What a successful rejection-sampling search guarantees: the returned cell
is fresh and valid, and the stream position advances by two per attempt. -/
theorem findFresh_some (size : ℕ) (r : RSrc) (tried : List Cell) :
    ∀ (fuel k : ℕ) (c : Cell) (k1 : ℕ),
      findFresh size r tried fuel k = some (c, k1) →
      c ∉ tried ∧ (∃ a, k1 = k + 2 * a + 2) ∧
        (0 < size → c.1 < size ∧ c.2 < size)
  | 0, _, _, _, h => by simp [findFresh] at h
  | fuel + 1, k, c, k1, h => by
    by_cases hmem : ((toIdx size (r k), toIdx size (r (k + 1))) : Cell) ∈ tried
    · rw [findFresh, if_pos hmem] at h
      obtain ⟨h1, ⟨a, ha⟩, h3⟩ := findFresh_some size r tried fuel (k + 2) c k1 h
      exact ⟨h1, ⟨a + 1, by omega⟩, h3⟩
    · rw [findFresh, if_neg hmem] at h
      simp only [Option.some.injEq, Prod.mk.injEq] at h
      obtain ⟨rfl, rfl⟩ := h
      exact ⟨hmem, ⟨0, by omega⟩,
        fun hs => ⟨toIdx_lt size hs _, toIdx_lt size hs _⟩⟩

/-- Larger fuel cannot change a successful rejection-sampling search. -/
theorem findFresh_mono (size : ℕ) (r : RSrc) (tried : List Cell) :
    ∀ (fuel fuel' k : ℕ) (res : Cell × ℕ), fuel ≤ fuel' →
      findFresh size r tried fuel k = some res →
      findFresh size r tried fuel' k = some res
  | 0, _, _, _, _, h => by simp [findFresh] at h
  | fuel + 1, 0, _, _, hle, _ => absurd hle (by omega)
  | fuel + 1, fuel' + 1, k, res, hle, h => by
    by_cases hmem : ((toIdx size (r k), toIdx size (r (k + 1))) : Cell) ∈ tried
    · rw [findFresh, if_pos hmem] at h ⊢
      exact findFresh_mono size r tried fuel fuel' (k + 2) res (Nat.le_of_succ_le_succ hle) h
    · rw [findFresh, if_neg hmem] at h ⊢
      exact h

@[simp] theorem stepOf_cCell (size : ℕ) (board : List Bool) (fp fn : ℚ) (r : RSrc)
    (s : SimState) (c : Cell) (k1 : ℕ) :
    (stepOf size board fp fn r s c k1).cCell = c := rfl

@[simp] theorem stepOf_qIdx (size : ℕ) (board : List Bool) (fp fn : ℚ) (r : RSrc)
    (s : SimState) (c : Cell) (k1 : ℕ) :
    (stepOf size board fp fn r s c k1).qIdx = argmaxIdx s.prob := rfl

@[simp] theorem stepOf_next_tried (size : ℕ) (board : List Bool) (fp fn : ℚ) (r : RSrc)
    (s : SimState) (c : Cell) (k1 : ℕ) :
    (stepOf size board fp fn r s c k1).next.tried_c = c :: s.tried_c := rfl

@[simp] theorem stepOf_next_guesses_c (size : ℕ) (board : List Bool) (fp fn : ℚ) (r : RSrc)
    (s : SimState) (c : Cell) (k1 : ℕ) :
    (stepOf size board fp fn r s c k1).next.guesses_c = s.guesses_c + 1 := rfl

@[simp] theorem stepOf_next_guesses_q (size : ℕ) (board : List Bool) (fp fn : ℚ) (r : RSrc)
    (s : SimState) (c : Cell) (k1 : ℕ) :
    (stepOf size board fp fn r s c k1).next.guesses_q = s.guesses_q + 1 := rfl

@[simp] theorem stepOf_next_pos (size : ℕ) (board : List Bool) (fp fn : ℚ) (r : RSrc)
    (s : SimState) (c : Cell) (k1 : ℕ) :
    (stepOf size board fp fn r s c k1).next.pos = k1 + 2 := by
  simp [stepOf, noisy_sensor_eq]

@[simp] theorem stepOf_next_c_found (size : ℕ) (board : List Bool) (fp fn : ℚ) (r : RSrc)
    (s : SimState) (c : Cell) (k1 : ℕ) :
    (stepOf size board fp fn r s c k1).next.c_found =
      s.c_found.set (flat size c) (stepOf size board fp fn r s c k1).cRead := rfl

@[simp] theorem stepOf_next_q_found (size : ℕ) (board : List Bool) (fp fn : ℚ) (r : RSrc)
    (s : SimState) (c : Cell) (k1 : ℕ) :
    (stepOf size board fp fn r s c k1).next.q_found =
      s.q_found.set (argmaxIdx s.prob) (stepOf size board fp fn r s c k1).qRead := by
  simp only [stepOf]
  rw [Nat.div_add_mod']

@[simp] theorem stepOf_preProb (size : ℕ) (board : List Bool) (fp fn : ℚ) (r : RSrc)
    (s : SimState) (c : Cell) (k1 : ℕ) :
    (stepOf size board fp fn r s c k1).preProb =
      ((if (stepOf size board fp fn r s c k1).qRead then
          boostList size (argmaxIdx s.prob / size) (argmaxIdx s.prob % size) s.prob
        else s.prob).set (argmaxIdx s.prob) 0) := by
  simp only [stepOf]
  rw [Nat.div_add_mod']

@[simp] theorem stepOf_denom (size : ℕ) (board : List Bool) (fp fn : ℚ) (r : RSrc)
    (s : SimState) (c : Cell) (k1 : ℕ) :
    (stepOf size board fp fn r s c k1).denom =
      (stepOf size board fp fn r s c k1).preProb.sum := rfl

@[simp] theorem stepOf_next_prob (size : ℕ) (board : List Bool) (fp fn : ℚ) (r : RSrc)
    (s : SimState) (c : Cell) (k1 : ℕ) :
    (stepOf size board fp fn r s c k1).next.prob =
      (stepOf size board fp fn r s c k1).preProb.map
        (fun q => q / (stepOf size board fp fn r s c k1).denom) := rfl

theorem stepInfo_eq_some (size : ℕ) (board : List Bool) (fp fn : ℚ) (r : RSrc)
    (fuel : ℕ) (s : SimState) (info : StepInfo) :
    stepInfo size board fp fn r fuel s = some info ↔
      ∃ c k1, findFresh size r s.tried_c fuel s.pos = some (c, k1) ∧
        info = stepOf size board fp fn r s c k1 := by
  constructor
  · intro h
    rcases Option.map_eq_some'.mp h with ⟨p, hp, hst⟩
    exact ⟨p.1, p.2, by simpa using hp, hst.symm⟩
  · rintro ⟨c, k1, hf, rfl⟩
    simp [stepInfo, hf]

theorem simStep_some (size : ℕ) (board : List Bool) (fp fn : ℚ) (r : RSrc)
    (fuel : ℕ) (s s' : SimState) :
    simStep size board fp fn r fuel s = some s' ↔
      ∃ c k1, findFresh size r s.tried_c fuel s.pos = some (c, k1) ∧
        s' = (stepOf size board fp fn r s c k1).next := by
  constructor
  · intro h
    rcases Option.map_eq_some'.mp h with ⟨info, hinfo, hnext⟩
    rcases (stepInfo_eq_some size board fp fn r fuel s info).mp hinfo with ⟨c, k1, hf, rfl⟩
    exact ⟨c, k1, hf, hnext.symm⟩
  · rintro ⟨c, k1, hf, rfl⟩
    simp [simStep, stepInfo, hf]

theorem simStep_guesses (size : ℕ) (board : List Bool) (fp fn : ℚ) (r : RSrc)
    (fuel : ℕ) (s s' : SimState)
    (h : simStep size board fp fn r fuel s = some s') :
    s'.guesses_c = s.guesses_c + 1 ∧ s'.guesses_q = s.guesses_q + 1 := by
  rcases (simStep_some size board fp fn r fuel s s').mp h with ⟨c, k1, _, rfl⟩
  simp

theorem runIter_succ_front (size : ℕ) (board : List Bool) (fp fn : ℚ) (r : RSrc)
    (fuel k : ℕ) (s t : SimState) :
    runIter size board fp fn r fuel (k + 1) s = some t ↔
      ∃ s', simStep size board fp fn r fuel s = some s' ∧
        runIter size board fp fn r fuel k s' = some t := by
  simp [runIter, Option.bind_eq_some]

theorem runIter_guesses (size : ℕ) (board : List Bool) (fp fn : ℚ) (r : RSrc)
    (fuel : ℕ) : ∀ (k : ℕ) (s t : SimState),
    runIter size board fp fn r fuel k s = some t →
    t.guesses_c = s.guesses_c + k ∧ t.guesses_q = s.guesses_q + k
  | 0, s, t, h => by
    simp only [runIter, Option.some.injEq] at h
    simp [← h]
  | k + 1, s, t, h => by
    rcases (runIter_succ_front size board fp fn r fuel k s t).mp h with ⟨s', hs', ht⟩
    have h1 := simStep_guesses size board fp fn r fuel s s' hs'
    have h2 := runIter_guesses size board fp fn r fuel k s' t ht
    omega

/-- Every successful run of the loop-with-break is a prefix of the unbroken
iteration: it consists of `k ≤ n` iterations, and either the `break`
condition holds at the final state or all `n` iterations ran. -/
theorem runLoop_to_runIter (size num_ships : ℕ) (board : List Bool) (fp fn : ℚ)
    (r : RSrc) (fuel : ℕ) : ∀ (n : ℕ) (s t : SimState),
    runLoop size num_ships board fp fn r fuel n s = some t →
    ∃ k, k ≤ n ∧ runIter size board fp fn r fuel k s = some t ∧
      (bothDone size num_ships board t = true ∨ k = n)
  | 0, s, t, h => by
    simp only [runLoop, Option.some.injEq] at h
    exact ⟨0, le_refl 0, by simp [runIter, h], Or.inr rfl⟩
  | n + 1, s, t, h => by
    rw [runLoop] at h
    cases hs : simStep size board fp fn r fuel s with
    | none => rw [hs] at h; exact absurd h (by simp)
    | some s' =>
      rw [hs] at h
      simp only [Option.some_bind] at h
      by_cases hd : bothDone size num_ships board s' = true
      · rw [if_pos hd] at h
        obtain rfl : s' = t := Option.some.inj h
        exact ⟨1, by omega,
          (runIter_succ_front size board fp fn r fuel 0 s _).mpr
            ⟨_, hs, by simp [runIter]⟩, Or.inl hd⟩
      · rw [if_neg hd] at h
        obtain ⟨k, hk, hiter, hdisj⟩ :=
          runLoop_to_runIter size num_ships board fp fn r fuel n s' t h
        exact ⟨k + 1, by omega,
          (runIter_succ_front size board fp fn r fuel k s t).mpr ⟨s', hs, hiter⟩,
          hdisj.imp id (by omega)⟩

theorem bothDone_iff (size num_ships : ℕ) (board : List Bool) (s : SimState) :
    bothDone size num_ships board s = true ↔
      num_ships ≤ hitCount size s.c_found board ∧
        num_ships ≤ hitCount size s.q_found board := by
  simp [bothDone]

/-! ## The shared loop advances both searchers in lockstep (claims C9, C2) -/

/-- C9: the two searchers advance in one shared loop: after `k` iterations
both guess counters equal `k`; a completed run ends either with both hit
counts at `num_ships` (the `break` fired) or after exactly `size*size`
iterations, and the two final guess counts are always equal. -/
theorem claim9_lockstep_loop (size num_ships : ℕ) (board : List Bool)
    (fp fn : ℚ) (r : RSrc) (fuel : ℕ) :
    (∀ k t, runIter size board fp fn r fuel k (initState size) = some t →
      t.guesses_c = k ∧ t.guesses_q = k) ∧
    (∀ t, runSim size num_ships board fp fn r fuel = some t →
      t.guesses_c = t.guesses_q ∧
        ((num_ships ≤ hitCount size t.c_found board ∧
          num_ships ≤ hitCount size t.q_found board) ∨
          t.guesses_c = size * size)) := by
  constructor
  · intro k t h
    have := runIter_guesses size board fp fn r fuel k (initState size) t h
    simpa [initState] using this
  · intro t h
    obtain ⟨k, hk, hiter, hdisj⟩ :=
      runLoop_to_runIter size num_ships board fp fn r fuel (size * size)
        (initState size) t h
    have hg := runIter_guesses size board fp fn r fuel k (initState size) t hiter
    simp only [initState, Nat.zero_add] at hg
    refine ⟨by omega, ?_⟩
    rcases hdisj with hd | rfl
    · exact Or.inl ((bothDone_iff size num_ships board t).mp hd)
    · exact Or.inr (by omega)

/-- Witness for C9 on a concrete completed run. -/
theorem claim9_lockstep_loop_witness :
    ((runSim 2 1 board2a 0 0 stream2a 2).getD (initState 2)).guesses_c =
      ((runSim 2 1 board2a 0 0 stream2a 2).getD (initState 2)).guesses_q := by
  have h : runSim 2 1 board2a 0 0 stream2a 2 =
      some ((runSim 2 1 board2a 0 0 stream2a 2).getD (initState 2)) := by
    with_unfolding_all decide
  exact ((claim9_lockstep_loop 2 1 board2a 0 0 stream2a 2).2 _ h).1

/-- C2 counterexample: on the `2×2` board with one ship at `(1,1)` and the
stream `stream2b`, the classical searcher's hit count reaches
`num_targets = 1` already after the first iteration, yet the run ends with
`guesses_c = 4`: the classical searcher kept guessing after its own
stopping condition was met, because the loop waits for the guided searcher. -/
theorem claim2_counterexample :
    (runIter 2 board2b 0 0 stream2b 2 1 (initState 2)).isSome = true ∧
    hitCount 2
      ((runIter 2 board2b 0 0 stream2b 2 1 (initState 2)).getD
        (initState 2)).c_found board2b = 1 ∧
    (runSim 2 1 board2b 0 0 stream2b 2).isSome = true ∧
    ((runSim 2 1 board2b 0 0 stream2b 2).getD (initState 2)).guesses_c = 4 := by
  refine ⟨?_, ?_, ?_, ?_⟩ <;> with_unfolding_all decide

/-- C2 amended: neither searcher stops on its own hit count; the shared loop
stops as soon as BOTH hit counts have reached `num_targets` (or after
`size*size` iterations), and both searchers make exactly one guess per
iteration until then, so their guess counts coincide. -/
theorem claim2_amended_joint_stop (size num_ships : ℕ) (board : List Bool)
    (fp fn : ℚ) (r : RSrc) (fuel : ℕ) (t : SimState)
    (h : runSim size num_ships board fp fn r fuel = some t) :
    t.guesses_c = t.guesses_q ∧
      ((num_ships ≤ hitCount size t.c_found board ∧
        num_ships ≤ hitCount size t.q_found board) ∨
        t.guesses_c = size * size) := by
  obtain ⟨k, hk, hiter, hdisj⟩ :=
    runLoop_to_runIter size num_ships board fp fn r fuel (size * size)
      (initState size) t h
  have hg := runIter_guesses size board fp fn r fuel k (initState size) t hiter
  simp only [initState, Nat.zero_add] at hg
  refine ⟨by omega, ?_⟩
  rcases hdisj with hd | rfl
  · exact Or.inl ((bothDone_iff size num_ships board t).mp hd)
  · exact Or.inr (by omega)

/-- Witness for the amended C2 on a concrete run: the run of
`claim2_counterexample` ends with both hit counts at `num_targets`. -/
theorem claim2_amended_joint_stop_witness :
    ((runSim 2 1 board2b 0 0 stream2b 2).getD (initState 2)).guesses_c =
      ((runSim 2 1 board2b 0 0 stream2b 2).getD (initState 2)).guesses_q := by
  have h : runSim 2 1 board2b 0 0 stream2b 2 =
      some ((runSim 2 1 board2b 0 0 stream2b 2).getD (initState 2)) := by
    with_unfolding_all decide
  exact (claim2_amended_joint_stop 2 1 board2b 0 0 stream2b 2 _ h).1

/-! ## Pointwise lemmas about the belief updates -/

theorem getD_set_self {α : Type} (l : List α) (i : ℕ) (v d : α)
    (h : i < l.length) : (l.set i v).getD i d = v := by
  simp [List.getD_eq_getElem?_getD, List.getElem?_set_self h]

theorem getD_set_ne {α : Type} (l : List α) (i j : ℕ) (v d : α) (h : i ≠ j) :
    (l.set i v).getD j d = l.getD j d := by
  simp [List.getD_eq_getElem?_getD, List.getElem?_set_ne h]

@[simp] theorem boostList_length (size xq yq : ℕ) (l : List ℚ) :
    (boostList size xq yq l).length = l.length := by
  simp [boostList]

/-- The boost adds exactly `0.3` to the entries of the clipped `3×3`
neighbourhood and leaves all other entries unchanged. -/
theorem boostList_getD (size xq yq : ℕ) (l : List ℚ) (j : ℕ) (hj : j < l.length) :
    (boostList size xq yq l).getD j 0 =
      l.getD j 0 + (if inNbhd size xq yq j then 3 / 10 else 0) := by
  have hj2 : j < (boostList size xq yq l).length := by simpa using hj
  rw [List.getD_eq_getElem?_getD, List.getD_eq_getElem?_getD,
    List.getElem?_eq_getElem hj2, List.getElem?_eq_getElem hj]
  simp only [Option.getD_some, boostList, List.getElem_mapIdx]
  split <;> simp

theorem sum_map_div (l : List ℚ) (t : ℚ) :
    (l.map fun q => q / t).sum = l.sum / t := by
  induction l with
  | nil => simp
  | cons a l ih => simp [ih, add_div]

/-! ## One guided iteration does exactly the specified steps (claim C4) -/

/-- C4: in every loop iteration the guided searcher (i) selects the cell of
maximum belief, first occurrence in row-major order on ties; (ii) records
the sensor reading at that cell; (iii) on a hit adds exactly `0.3` to every
belief in the clipped `3×3` neighbourhood of the probed cell — which
contains the probed cell itself — and nothing elsewhere; (iv) then zeroes
the probed cell; (v) finally divides the whole grid by its sum, which
renormalises it to total `1` whenever that sum is nonzero. -/
theorem claim4_guided_iteration (size : ℕ) (board : List Bool) (fp fn : ℚ)
    (r : RSrc) (fuel : ℕ) (s : SimState) (info : StepInfo)
    (hstep : stepInfo size board fp fn r fuel s = some info)
    (hlen : s.prob.length = size * size) (hne : s.prob ≠ []) :
    (info.qIdx < size * size ∧
      (∀ j < size * size, s.prob.getD j 0 ≤ s.prob.getD info.qIdx 0) ∧
      (∀ j < info.qIdx, s.prob.getD j 0 < s.prob.getD info.qIdx 0)) ∧
    info.next.q_found = s.q_found.set info.qIdx info.qRead ∧
    inNbhd size (info.qIdx / size) (info.qIdx % size) info.qIdx ∧
    (∀ j < size * size, info.preProb.getD j 0 =
      if j = info.qIdx then 0
      else s.prob.getD j 0 +
        (if info.qRead = true ∧
            inNbhd size (info.qIdx / size) (info.qIdx % size) j
          then 3 / 10 else 0)) ∧
    info.denom = info.preProb.sum ∧
    info.next.prob = info.preProb.map (fun q => q / info.denom) ∧
    (info.denom ≠ 0 → info.next.prob.sum = 1) := by
  rcases (stepInfo_eq_some size board fp fn r fuel s info).mp hstep with ⟨c, k1, _, rfl⟩
  obtain ⟨hqlt, hmax, hstrict⟩ := argmaxIdx_spec s.prob hne
  rw [hlen] at hqlt
  have hsize : 0 < size := by
    rcases Nat.eq_zero_or_pos size with rfl | h
    · exact absurd (List.length_eq_zero.mp (by simpa using hlen)) hne
    · exact h
  have hdivlt : argmaxIdx s.prob / size < size := Nat.div_lt_of_lt_mul hqlt
  have hmodlt : argmaxIdx s.prob % size < size := Nat.mod_lt _ hsize
  refine ⟨⟨by simpa using hqlt, fun j hj => hmax j (by omega), by simpa using hstrict⟩,
    by simp, ?_, ?_, by simp, by simp, ?_⟩
  · simp only [stepOf_qIdx]
    exact ⟨Nat.sub_le _ _, lt_min hdivlt (by omega), Nat.sub_le _ _,
      lt_min hmodlt (by omega)⟩
  · intro j hj
    simp only [stepOf_preProb, stepOf_qIdx]
    by_cases hjq : j = argmaxIdx s.prob
    · subst hjq
      rw [if_pos rfl]
      apply getD_set_self
      split
      · simp only [boostList_length]; omega
      · omega
    · rw [if_neg hjq, getD_set_ne _ _ _ _ _ (fun h => hjq h.symm)]
      by_cases hread : (stepOf size board fp fn r s c k1).qRead = true
      · rw [if_pos hread, boostList_getD size _ _ s.prob j (by omega)]
        by_cases hnb : inNbhd size (argmaxIdx s.prob / size) (argmaxIdx s.prob % size) j
        · rw [if_pos hnb, if_pos ⟨hread, hnb⟩]
        · rw [if_neg hnb, if_neg (fun hc => hnb hc.2)]
      · rw [if_neg hread, if_neg (fun hc => hread hc.1)]
        simp
  · intro hd
    simp only [stepOf_next_prob] at *
    rw [sum_map_div, ← stepOf_denom, div_self hd]

/-- Witness for C4: after the first iteration on `board2a` the belief grid
sums to `1`. -/
theorem claim4_guided_iteration_witness :
    ((stepInfo 2 board2a 0 0 stream2a 2 (initState 2)).getD
      (stepOf 2 board2a 0 0 stream2a (initState 2) (0, 0) 0)).next.prob.sum = 1 := by
  have h : stepInfo 2 board2a 0 0 stream2a 2 (initState 2) =
      some ((stepInfo 2 board2a 0 0 stream2a 2 (initState 2)).getD
        (stepOf 2 board2a 0 0 stream2a (initState 2) (0, 0) 0)) := by
    with_unfolding_all decide
  exact (claim4_guided_iteration 2 board2a 0 0 stream2a 2 (initState 2) _ h
    (by with_unfolding_all decide) (by with_unfolding_all decide)).2.2.2.2.2.2
    (by with_unfolding_all decide)

/-! ## Nonnegativity and support of the belief grid -/

theorem getD_eq_default_of_le {α : Type} (l : List α) (d : α) (n : ℕ)
    (h : l.length ≤ n) : l.getD n d = d := by
  simp [List.getD_eq_getElem?_getD, List.getElem?_eq_none h]

/-- The number of grid positions holding strictly positive belief. -/
def posCount (size : ℕ) (l : List ℚ) : ℕ :=
  ((Finset.range (size * size)).filter fun i => 0 < l.getD i 0).card

theorem list_sum_nonneg (l : List ℚ) (h : ∀ j, 0 ≤ l.getD j 0) : 0 ≤ l.sum := by
  refine List.sum_nonneg fun x hx => ?_
  rcases List.mem_iff_getElem.mp hx with ⟨n, hn, rfl⟩
  have := h n
  rwa [List.getD_eq_getElem?_getD, List.getElem?_eq_getElem hn, Option.getD_some] at this

theorem list_sum_pos_of_getD (l : List ℚ) (h : ∀ j, 0 ≤ l.getD j 0) (i : ℕ)
    (hi : i < l.length) (hpos : 0 < l.getD i 0) : 0 < l.sum := by
  have hmem : l[i] ∈ l := List.getElem_mem hi
  have hnn : ∀ x ∈ l, 0 ≤ x := fun x hx => by
    rcases List.mem_iff_getElem.mp hx with ⟨n, hn, rfl⟩
    have := h n
    rwa [List.getD_eq_getElem?_getD, List.getElem?_eq_getElem hn, Option.getD_some] at this
  have hle := List.single_le_sum hnn _ hmem
  rw [List.getD_eq_getElem?_getD, List.getElem?_eq_getElem hi, Option.getD_some] at hpos
  exact lt_of_lt_of_le hpos hle

theorem list_sum_zero_all_zero (l : List ℚ) (h : ∀ j, 0 ≤ l.getD j 0)
    (hsum : l.sum = 0) (j : ℕ) : l.getD j 0 = 0 := by
  rcases lt_or_ge j l.length with hj | hj
  · have hnn : ∀ x ∈ l, 0 ≤ x := fun x hx => by
      rcases List.mem_iff_getElem.mp hx with ⟨n, hn, rfl⟩
      have := h n
      rwa [List.getD_eq_getElem?_getD, List.getElem?_eq_getElem hn, Option.getD_some] at this
    have := List.all_zero_of_le_zero_le_of_sum_eq_zero hnn hsum
      (List.getElem_mem hj)
    rwa [List.getD_eq_getElem?_getD, List.getElem?_eq_getElem hj, Option.getD_some]
  · exact getD_eq_default_of_le l 0 j hj

/-- One loop iteration keeps the belief grid nonnegative, keeps its length,
loses at most one strictly-positive cell, and — away from the very last
possible iteration — renormalises by a strictly positive sum. -/
theorem probInv_step (size k : ℕ) (board : List Bool) (fp fn : ℚ) (r : RSrc)
    (fuel : ℕ) (s : SimState) (info : StepInfo)
    (hstep : stepInfo size board fp fn r fuel s = some info)
    (hlen : s.prob.length = size * size)
    (hnn : ∀ j, 0 ≤ s.prob.getD j 0)
    (hpos : size * size - k ≤ posCount size s.prob) :
    info.next.prob.length = size * size ∧
      (∀ j, 0 ≤ info.next.prob.getD j 0) ∧
      size * size - (k + 1) ≤ posCount size info.next.prob ∧
      (k + 1 < size * size → 0 < info.denom) := by
  rcases (stepInfo_eq_some size board fp fn r fuel s info).mp hstep with ⟨c, k1, _, rfl⟩
  set qi := argmaxIdx s.prob with hqi
  set prob1 := (if (stepOf size board fp fn r s c k1).qRead = true then
    boostList size (qi / size) (qi % size) s.prob else s.prob) with hprob1
  have hlen1 : prob1.length = size * size := by
    rw [hprob1]; split <;> simp [hlen]
  have hnn1 : ∀ j, 0 ≤ prob1.getD j 0 := by
    intro j
    rw [hprob1]
    split
    · rcases lt_or_ge j s.prob.length with hj | hj
      · rw [boostList_getD size _ _ s.prob j hj]
        have := hnn j
        split <;> linarith
      · rw [getD_eq_default_of_le _ 0 j (by simpa using hj)]
    · exact hnn j
  have hmono1 : posCount size s.prob ≤ posCount size prob1 := by
    apply Finset.card_le_card
    apply Finset.monotone_filter_right
    intro i hi
    rw [hprob1]
    split
    · rcases lt_or_ge i s.prob.length with hil | hil
      · rw [boostList_getD size _ _ s.prob i hil]
        have hb : (0 : ℚ) ≤ if inNbhd size (qi / size) (qi % size) i then 3 / 10 else 0 := by
          split <;> linarith
        linarith
      · rw [getD_eq_default_of_le _ 0 i hil] at hi
        exact absurd hi (lt_irrefl 0)
    · exact hi
  have hpre : (stepOf size board fp fn r s c k1).preProb = prob1.set qi 0 := by
    rw [stepOf_preProb, hprob1, hqi]
  have hlen2 : (stepOf size board fp fn r s c k1).preProb.length = size * size := by
    rw [hpre]; simpa using hlen1
  have hnn2 : ∀ j, 0 ≤ (stepOf size board fp fn r s c k1).preProb.getD j 0 := by
    intro j
    rw [hpre]
    by_cases hj : qi = j
    · subst hj
      rcases lt_or_ge qi prob1.length with hq | hq
      · rw [getD_set_self prob1 qi 0 0 hq]
      · rw [getD_eq_default_of_le _ 0 qi (by simpa using hq)]
    · rw [getD_set_ne prob1 qi j 0 0 hj]
      exact hnn1 j
  have hpos2 : posCount size prob1 - 1 ≤
      posCount size (stepOf size board fp fn r s c k1).preProb := by
    rw [hpre]
    have hsub : ((Finset.range (size * size)).filter fun i => 0 < prob1.getD i 0) \ {qi} ⊆
        ((Finset.range (size * size)).filter fun i => 0 < (prob1.set qi 0).getD i 0) := by
      intro i hi
      rcases Finset.mem_sdiff.mp hi with ⟨hif, hiq⟩
      rcases Finset.mem_filter.mp hif with ⟨hir, hip⟩
      refine Finset.mem_filter.mpr ⟨hir, ?_⟩
      rw [getD_set_ne prob1 qi i 0 0 (fun h => hiq (Finset.mem_singleton.mpr h.symm))]
      exact hip
    calc posCount size prob1 - 1
        = ((Finset.range (size * size)).filter fun i => 0 < prob1.getD i 0).card -
            ({qi} : Finset ℕ).card := by simp [posCount]
      _ ≤ (((Finset.range (size * size)).filter fun i => 0 < prob1.getD i 0) \ {qi}).card :=
          Finset.le_card_sdiff _ _
      _ ≤ _ := Finset.card_le_card hsub
  refine ⟨by simp only [stepOf_next_prob, List.length_map]; exact hlen2, ?_, ?_, ?_⟩
  · intro j
    simp only [stepOf_next_prob]
    rcases lt_or_ge j (stepOf size board fp fn r s c k1).preProb.length with hj | hj
    · rw [List.getD_eq_getElem?_getD,
        List.getElem?_eq_getElem (by simpa using hj), Option.getD_some,
        List.getElem_map]
      exact div_nonneg (by
        have := hnn2 j
        rwa [List.getD_eq_getElem?_getD, List.getElem?_eq_getElem hj,
          Option.getD_some] at this)
        (by
          rw [stepOf_denom]
          exact list_sum_nonneg _ hnn2)
    · rw [getD_eq_default_of_le _ 0 j (by simpa using hj)]
  · by_cases hd : (stepOf size board fp fn r s c k1).denom = 0
    · have hall : ∀ j, (stepOf size board fp fn r s c k1).preProb.getD j 0 = 0 := by
        intro j
        exact list_sum_zero_all_zero _ hnn2 (by rw [← stepOf_denom]; exact hd) j
      have : posCount size (stepOf size board fp fn r s c k1).preProb = 0 := by
        simp only [posCount, Finset.card_eq_zero, Finset.filter_eq_empty_iff]
        intro i _
        rw [hall i]
        exact lt_irrefl 0
      omega
    · have hnext : posCount size (stepOf size board fp fn r s c k1).next.prob =
          posCount size (stepOf size board fp fn r s c k1).preProb := by
        simp only [posCount, stepOf_next_prob]
        congr 1
        apply Finset.filter_congr
        intro i hir
        have hilt : i < (stepOf size board fp fn r s c k1).preProb.length := by
          rw [hlen2]
          exact Finset.mem_range.mp hir
        rw [List.getD_eq_getElem?_getD,
          List.getElem?_eq_getElem (by simpa using hilt), Option.getD_some,
          List.getElem_map, List.getD_eq_getElem?_getD,
          List.getElem?_eq_getElem hilt, Option.getD_some]
        have hdpos : 0 < (stepOf size board fp fn r s c k1).denom :=
          lt_of_le_of_ne (by rw [stepOf_denom]; exact list_sum_nonneg _ hnn2)
            (Ne.symm hd)
        constructor
        · intro hq
          have := (div_pos_iff).mp hq
          rcases this with ⟨h1, _⟩ | ⟨_, h2⟩
          · simpa using h1
          · exact absurd hdpos (asymm h2)
        · intro hq
          exact div_pos (by simpa using hq) hdpos
      omega
  · intro hk
    have h1 : 0 < posCount size (stepOf size board fp fn r s c k1).preProb := by omega
    obtain ⟨i, hi⟩ := Finset.card_pos.mp h1
    rcases Finset.mem_filter.mp hi with ⟨hir, hip⟩
    rw [stepOf_denom]
    exact list_sum_pos_of_getD _ hnn2 i (by rw [hlen2]; exact Finset.mem_range.mp hir) hip

/-- The belief-grid invariant after `j` iterations: full length, nonnegative
entries, and at least `size*size - j` strictly positive cells. -/
def ProbInv (size j : ℕ) (l : List ℚ) : Prop :=
  l.length = size * size ∧ (∀ i, 0 ≤ l.getD i 0) ∧
    size * size - j ≤ posCount size l

theorem probInv_initState (size : ℕ) : ProbInv size 0 (initState size).prob := by
  have hget : ∀ i, i < size * size →
      (initState size).prob.getD i 0 = (1 : ℚ) / (size * size) := by
    intro i hi
    rw [initState]
    rw [List.getD_eq_getElem?_getD,
      List.getElem?_eq_getElem (by simpa using hi), Option.getD_some,
      List.getElem_replicate]
  refine ⟨by simp [initState], ?_, ?_⟩
  · intro i
    rcases lt_or_ge i (size * size) with hi | hi
    · rw [hget i hi]
      positivity
    · rw [getD_eq_default_of_le _ 0 i (by simp [initState]; omega)]
  · have hfe : ((Finset.range (size * size)).filter
        fun i => 0 < (initState size).prob.getD i 0) = Finset.range (size * size) := by
      apply Finset.filter_true_of_mem
      intro i hi
      have hilt := Finset.mem_range.mp hi
      rw [hget i hilt]
      have hpos : (0 : ℚ) < (size : ℚ) * size := by
        have h1 : (0 : ℚ) < ((size * size : ℕ) : ℚ) := by
          exact_mod_cast Nat.pos_of_ne_zero (by omega)
        rwa [Nat.cast_mul] at h1
      exact div_pos one_pos hpos
    have hcard : posCount size (initState size).prob = size * size := by
      unfold posCount
      rw [hfe, Finset.card_range]
    omega

theorem probInv_runIter (size : ℕ) (board : List Bool) (fp fn : ℚ) (r : RSrc)
    (fuel : ℕ) : ∀ (k j : ℕ) (s t : SimState),
    runIter size board fp fn r fuel k s = some t → ProbInv size j s.prob →
    ProbInv size (j + k) t.prob
  | 0, j, s, t, h, hinv => by
    simp only [runIter, Option.some.injEq] at h
    simpa [← h] using hinv
  | k + 1, j, s, t, h, hinv => by
    rcases (runIter_succ_front size board fp fn r fuel k s t).mp h with ⟨s', hs', ht⟩
    rcases (simStep_some size board fp fn r fuel s s').mp hs' with ⟨c, k1, hf, rfl⟩
    have hstep : stepInfo size board fp fn r fuel s =
        some (stepOf size board fp fn r s c k1) :=
      (stepInfo_eq_some size board fp fn r fuel s _).mpr ⟨c, k1, hf, rfl⟩
    obtain ⟨h1, h2, h3, _⟩ := probInv_step size j board fp fn r fuel s _ hstep
      hinv.1 hinv.2.1 hinv.2.2
    have := probInv_runIter size board fp fn r fuel k (j + 1) _ t ht ⟨h1, h2, h3⟩
    refine ⟨this.1, this.2.1, ?_⟩
    have := this.2.2
    omega

/-- C10 amended: in every reachable iteration of a run except possibly the
very last possible one (iteration number `size*size`, by which every cell
can have been probed), the renormalisation sum taken after zeroing the
probed cell is strictly positive; in that final iteration it can be zero and
the division then divides by zero, as `claim10_counterexample` exhibits. -/
theorem claim10_amended_renorm_positive (size : ℕ) (board : List Bool)
    (fp fn : ℚ) (r : RSrc) (fuel : ℕ) (k : ℕ) (t : SimState) (info : StepInfo)
    (hiter : runIter size board fp fn r fuel k (initState size) = some t)
    (hstep : stepInfo size board fp fn r fuel t = some info)
    (hk : k + 1 < size * size) :
    0 < info.denom := by
  have hinv := probInv_runIter size board fp fn r fuel k 0 (initState size) t
    hiter (probInv_initState size)
  exact (probInv_step size k board fp fn r fuel t info hstep hinv.1 hinv.2.1
    (by have := hinv.2.2; omega)).2.2.2 hk

/-- Witness for the amended C10: the first iteration on `board2a`
renormalises by a positive sum. -/
theorem claim10_amended_renorm_positive_witness :
    0 < ((stepInfo 2 board2a 0 0 stream2a 2 (initState 2)).getD
      (stepOf 2 board2a 0 0 stream2a (initState 2) (0, 0) 0)).denom := by
  have h : stepInfo 2 board2a 0 0 stream2a 2 (initState 2) =
      some ((stepInfo 2 board2a 0 0 stream2a 2 (initState 2)).getD
        (stepOf 2 board2a 0 0 stream2a (initState 2) (0, 0) 0)) := by
    with_unfolding_all decide
  exact claim10_amended_renorm_positive 2 board2a 0 0 stream2a 2 0 (initState 2)
    _ rfl h (by decide)

/-- C10 counterexample: on the `2×2` board with one ship at `(0,0)`, zero
noise and stream `stream2a`, the loop genuinely reaches its fourth (last)
iteration (the `break` test fails after iterations 1–3), and there the sum
of the belief grid after zeroing the probed cell is `0`: the renormalisation
`prob /= np.sum(prob)` divides by zero. -/
theorem claim10_counterexample :
    (runIter 2 board2a 0 0 stream2a 2 3 (initState 2)).isSome = true ∧
    bothDone 2 1 board2a
      ((runIter 2 board2a 0 0 stream2a 2 1 (initState 2)).getD (initState 2)) = false ∧
    bothDone 2 1 board2a
      ((runIter 2 board2a 0 0 stream2a 2 2 (initState 2)).getD (initState 2)) = false ∧
    bothDone 2 1 board2a
      ((runIter 2 board2a 0 0 stream2a 2 3 (initState 2)).getD (initState 2)) = false ∧
    ((stepInfo 2 board2a 0 0 stream2a 2
        ((runIter 2 board2a 0 0 stream2a 2 3 (initState 2)).getD (initState 2))).getD
      (stepOf 2 board2a 0 0 stream2a (initState 2) (0, 0) 0)).denom = 0 ∧
    (stepInfo 2 board2a 0 0 stream2a 2
      ((runIter 2 board2a 0 0 stream2a 2 3 (initState 2)).getD
        (initState 2))).isSome = true := by
  refine ⟨?_, ?_, ?_, ?_, ?_, ?_⟩ <;> with_unfolding_all decide

/-! ## Belief at a probed cell (claim C1) -/

/-- C1 amended: the belief of the probed cell is exactly `0` at the end of
the iteration that probes it (whenever the renormalisation sum is nonzero).
It need NOT stay `0`: a later hit at an adjacent cell adds the `0.3` boost
back to it and the cell can then be selected again, as
`claim1_counterexample` exhibits. -/
theorem claim1_amended_probed_cell_zero (size : ℕ) (board : List Bool)
    (fp fn : ℚ) (r : RSrc) (fuel : ℕ) (s : SimState) (info : StepInfo)
    (hstep : stepInfo size board fp fn r fuel s = some info)
    (_hlen : s.prob.length = size * size) (hne : s.prob ≠ [])
    (hd : info.denom ≠ 0) :
    info.next.prob.getD info.qIdx 0 = 0 := by
  obtain ⟨hq, hmax, hstrict⟩ := argmaxIdx_spec s.prob hne
  rcases (stepInfo_eq_some size board fp fn r fuel s info).mp hstep with ⟨c, k1, _, rfl⟩
  have hqpre : (stepOf size board fp fn r s c k1).preProb.getD
      (argmaxIdx s.prob) 0 = 0 := by
    rw [stepOf_preProb]
    apply getD_set_self
    split
    · simpa using hq
    · exact hq
  have hlq : argmaxIdx s.prob < (stepOf size board fp fn r s c k1).preProb.length := by
    rw [stepOf_preProb]
    split
    · simpa using hq
    · simpa using hq
  simp only [stepOf_next_prob, stepOf_qIdx]
  rw [List.getD_eq_getElem?_getD,
    List.getElem?_eq_getElem (by simpa using hlq), Option.getD_some,
    List.getElem_map]
  rw [List.getD_eq_getElem?_getD, List.getElem?_eq_getElem hlq,
    Option.getD_some] at hqpre
  rw [hqpre, zero_div]

/-- Witness for the amended C1: after the first iteration on `board2a` the
probed cell `(0,0)` holds belief `0`. -/
theorem claim1_amended_probed_cell_zero_witness :
    ((stepInfo 2 board2a 0 0 stream2a 2 (initState 2)).getD
      (stepOf 2 board2a 0 0 stream2a (initState 2) (0, 0) 0)).next.prob.getD
      ((stepInfo 2 board2a 0 0 stream2a 2 (initState 2)).getD
        (stepOf 2 board2a 0 0 stream2a (initState 2) (0, 0) 0)).qIdx 0 = 0 := by
  have h : stepInfo 2 board2a 0 0 stream2a 2 (initState 2) =
      some ((stepInfo 2 board2a 0 0 stream2a 2 (initState 2)).getD
        (stepOf 2 board2a 0 0 stream2a (initState 2) (0, 0) 0)) := by
    with_unfolding_all decide
  exact claim1_amended_probed_cell_zero 2 board2a 0 0 stream2a 2 (initState 2) _ h
    (by with_unfolding_all decide) (by with_unfolding_all decide)
    (by with_unfolding_all decide)

/-- C1 counterexample: on `board3` (`3×3`, four ships in the top-left block,
zero noise, stream `stream3`) the guided searcher probes `(0,0)` (flat index
`0`) in iteration 1; after iteration 4 — which the loop genuinely reaches,
the `break` test failing after iterations 1–4 — the belief at the probed
cell `(0,0)` is nonzero again (the hits at its neighbours boosted it), and
iteration 5 selects flat index `0 = (0,0)` a second time. -/
theorem claim1_counterexample :
    argmaxIdx (initState 3).prob = 0 ∧
    (runIter 3 board3 0 0 stream3 2 4 (initState 3)).isSome = true ∧
    bothDone 3 4 board3
      ((runIter 3 board3 0 0 stream3 2 1 (initState 3)).getD (initState 3)) = false ∧
    bothDone 3 4 board3
      ((runIter 3 board3 0 0 stream3 2 2 (initState 3)).getD (initState 3)) = false ∧
    bothDone 3 4 board3
      ((runIter 3 board3 0 0 stream3 2 3 (initState 3)).getD (initState 3)) = false ∧
    bothDone 3 4 board3
      ((runIter 3 board3 0 0 stream3 2 4 (initState 3)).getD (initState 3)) = false ∧
    ((runIter 3 board3 0 0 stream3 2 4 (initState 3)).getD
      (initState 3)).prob.getD 0 0 ≠ 0 ∧
    argmaxIdx ((runIter 3 board3 0 0 stream3 2 4 (initState 3)).getD
      (initState 3)).prob = 0 ∧
    (runIter 3 board3 0 0 stream3 2 5 (initState 3)).isSome = true := by
  refine ⟨?_, ?_, ?_, ?_, ?_, ?_, ?_, ?_, ?_⟩ <;> with_unfolding_all decide

/-! ## Board generation is exact (claim C5) -/

theorem flat_lt (size : ℕ) (c : Cell) (h1 : c.1 < size) (h2 : c.2 < size) :
    flat size c < size * size := by
  have hstep : c.1 * size + c.2 < (c.1 + 1) * size := by
    have : (c.1 + 1) * size = c.1 * size + size := by ring
    omega
  exact lt_of_lt_of_le hstep (Nat.mul_le_mul_right size h1)

theorem flat_inj (size : ℕ) (a b : Cell) (ha : a.2 < size) (hb : b.2 < size)
    (h : flat size a = flat size b) : a = b := by
  have hsize : 0 < size := lt_of_le_of_lt (Nat.zero_le _) ha
  have hcomm : ∀ c : Cell, flat size c = c.2 + size * c.1 := by
    intro c; rw [flat]; ring
  rw [hcomm a, hcomm b] at h
  have hmod : a.2 = b.2 := by
    have hm := congrArg (· % size) h
    simpa [Nat.add_mul_mod_self_left, Nat.mod_eq_of_lt ha, Nat.mod_eq_of_lt hb] using hm
  have hdiv : a.1 = b.1 := by
    have hd := congrArg (· / size) h
    simpa [Nat.add_mul_div_left _ _ hsize, Nat.div_eq_of_lt ha,
      Nat.div_eq_of_lt hb] using hd
  rcases a with ⟨a1, a2⟩
  rcases b with ⟨b1, b2⟩
  simp_all

theorem cellsRM_mem (size x y : ℕ) :
    ((x, y) : Cell) ∈ cellsRM size ↔ x < size ∧ y < size := by
  simp [cellsRM, Prod.ext_iff]

theorem cellsRM_length (size : ℕ) : (cellsRM size).length = size * size := by
  have h : ∀ l : List ℕ,
      (l.flatMap fun i => (List.range size).map fun j => ((i, j) : Cell)).length =
        l.length * size := by
    intro l
    induction l with
    | nil => simp
    | cons a l ih =>
      simp only [List.flatMap_cons, List.length_append, List.length_map,
        List.length_range, ih, List.length_cons]
      ring
  simpa [cellsRM] using h (List.range size)

theorem cellsRM_nodup (size : ℕ) : (cellsRM size).Nodup := by
  rw [cellsRM, List.nodup_flatMap]
  constructor
  · intro x _
    exact (List.nodup_range size).map fun a b hab => (Prod.mk.injEq x a x b ▸ hab).2
  · have hlt := List.pairwise_lt_range size
    refine hlt.imp ?_
    intro a b hab
    intro c hca hcb
    rcases List.mem_map.mp hca with ⟨j1, _, rfl⟩
    rcases List.mem_map.mp hcb with ⟨j2, _, heq⟩
    exact absurd (congrArg Prod.fst heq).symm (Nat.ne_of_lt hab)

/-- One unfolding of the sampling recursion. -/
theorem sampleCells_succ (r : RSrc) (n : ℕ) (pop : List Cell) (k : ℕ) :
    sampleCells r (n + 1) pop k =
      (pop.getD (min (⌊r k * pop.length⌋).toNat (pop.length - 1)) (0, 0) ::
        (sampleCells r n
          (pop.eraseIdx (min (⌊r k * pop.length⌋).toNat (pop.length - 1))) (k + 1)).1,
        (sampleCells r n
          (pop.eraseIdx (min (⌊r k * pop.length⌋).toNat (pop.length - 1))) (k + 1)).2) :=
  rfl

/-- `random.sample`'s contract, realised by the sampling model: when
`n ≤ |pop|` and the population has no duplicates, the drawn list has length
`n`, has no duplicates, draws only population elements, and consumes one
stream draw per selection. -/
theorem sampleCells_spec (r : RSrc) : ∀ (n : ℕ) (pop : List Cell) (k : ℕ),
    n ≤ pop.length → pop.Nodup →
    (sampleCells r n pop k).1.length = n ∧ (sampleCells r n pop k).1.Nodup ∧
      (∀ c ∈ (sampleCells r n pop k).1, c ∈ pop) ∧
      (sampleCells r n pop k).2 = k + n
  | 0, pop, k, _, _ => by simp [sampleCells]
  | n + 1, pop, k, hn, hnd => by
    have hpop : 0 < pop.length := lt_of_lt_of_le (Nat.succ_pos n) hn
    have hilt : min (⌊r k * pop.length⌋).toNat (pop.length - 1) < pop.length :=
      lt_of_le_of_lt (Nat.min_le_right _ _) (Nat.sub_lt hpop Nat.one_pos)
    set i := min (⌊r k * pop.length⌋).toNat (pop.length - 1) with hidef
    have hle2 : n ≤ (pop.eraseIdx i).length := by
      rw [List.length_eraseIdx_of_lt hilt]; omega
    have hnd2 : (pop.eraseIdx i).Nodup := List.Nodup.eraseIdx i hnd
    obtain ⟨ihlen, ihnd, ihsub, ihpos⟩ :=
      sampleCells_spec r n (pop.eraseIdx i) (k + 1) hle2 hnd2
    have hc : pop.getD i (0, 0) = pop[i] := by
      rw [List.getD_eq_getElem?_getD, List.getElem?_eq_getElem hilt, Option.getD_some]
    have hnotmem : pop[i] ∉ pop.eraseIdx i := by
      intro hmem
      rcases List.mem_eraseIdx_iff_getElem.mp hmem with ⟨j, hjl, hji, hj⟩
      exact hji ((List.Nodup.getElem_inj_iff hnd).mp hj)
    rw [sampleCells_succ, ← hidef]
    refine ⟨by simpa using ihlen, ?_, ?_, by simpa using by omega⟩
    · refine List.nodup_cons.mpr ⟨?_, ihnd⟩
      rw [hc]
      exact fun hmem => hnotmem (ihsub _ hmem)
    · intro c hcmem
      rcases List.mem_cons.mp hcmem with rfl | hcrest
      · rw [hc]; exact List.getElem_mem hilt
      · exact List.mem_of_mem_eraseIdx (ihsub c hcrest)

theorem foldl_set_length (size : ℕ) : ∀ (pos : List Cell) (b : List Bool),
    (pos.foldl (fun b c => b.set (flat size c) true) b).length = b.length
  | [], _ => rfl
  | c :: rest, b => by
    rw [List.foldl_cons, foldl_set_length size rest]
    simp

theorem foldl_set_getD (size : ℕ) : ∀ (pos : List Cell) (b : List Bool) (i : ℕ),
    (∀ c ∈ pos, flat size c < b.length) →
    (pos.foldl (fun b c => b.set (flat size c) true) b).getD i false =
      (b.getD i false || pos.any fun c => flat size c == i)
  | [], b, i, _ => by simp
  | c0 :: rest, b, i, hval => by
    rw [List.foldl_cons, foldl_set_getD size rest _ i
      (fun c hc => by
        rw [List.length_set]
        exact hval c (List.mem_cons_of_mem c0 hc))]
    by_cases heq : flat size c0 = i
    · subst heq
      rw [getD_set_self b _ true false (hval c0 (List.mem_cons_self c0 rest))]
      simp
    · rw [getD_set_ne b _ i true false heq]
      simp only [List.any_cons]
      rw [show (flat size c0 == i) = false from beq_eq_false_iff_ne.mpr heq]
      simp

theorem markShips_length (size : ℕ) (pos : List Cell) :
    (markShips size pos).length = size * size := by
  rw [markShips, foldl_set_length size]
  simp

theorem markShips_getD (size : ℕ) (pos : List Cell)
    (hval : ∀ c ∈ pos, flat size c < size * size) (i : ℕ) :
    (markShips size pos).getD i false = pos.any fun c => flat size c == i := by
  rw [markShips, foldl_set_getD size pos _ i (by simpa using hval)]
  have hrep : (List.replicate (size * size) false).getD i false = false := by
    rcases lt_or_ge i (size * size) with h | h
    · rw [List.getD_eq_getElem?_getD, List.getElem?_eq_getElem (by simpa using h),
        Option.getD_some, List.getElem_replicate]
    · exact getD_eq_default_of_le _ false i (by simpa using h)
  simp [hrep]

theorem trueCount_markShips (size : ℕ) (pos : List Cell)
    (hval : ∀ c ∈ pos, c.1 < size ∧ c.2 < size) (hnd : pos.Nodup) :
    trueCount size (markShips size pos) = pos.length := by
  have hvalf : ∀ c ∈ pos, flat size c < size * size := fun c hc =>
    flat_lt size c (hval c hc).1 (hval c hc).2
  have himg : (Finset.range (size * size)).filter
      (fun i => (markShips size pos).getD i false = true) =
      pos.toFinset.image (flat size) := by
    ext i
    simp only [Finset.mem_filter, Finset.mem_range, Finset.mem_image,
      List.mem_toFinset]
    rw [markShips_getD size pos hvalf i]
    constructor
    · rintro ⟨_, hany⟩
      rcases List.any_eq_true.mp hany with ⟨c, hc, hci⟩
      exact ⟨c, hc, by simpa using hci⟩
    · rintro ⟨c, hc, rfl⟩
      exact ⟨hvalf c hc, List.any_eq_true.mpr ⟨c, hc, by simp⟩⟩
  rw [trueCount, himg, Finset.card_image_of_injOn, List.toFinset_card_of_nodup hnd]
  intro a ha b hb hab
  exact flat_inj size a b (hval a (List.mem_toFinset.mp ha)).2
    (hval b (List.mem_toFinset.mp hb)).2 hab

/-- C5: for every valid configuration (`0 ≤ num_targets ≤ size*size`) board
generation succeeds and produces a full-size board with exactly
`num_targets` cells set to true, at `num_targets` distinct sampled
coordinates, and a cell is true exactly when it is one of the sampled
coordinates (every other cell is false). -/
theorem claim5_generate_board (size : ℕ) (n : ℤ) (r : RSrc) (k : ℕ)
    (h0 : 0 ≤ n) (h1 : n ≤ ((size * size : ℕ) : ℤ)) :
    generate_board size n r k =
      .ok (markShips size (ship_positions size n.toNat r k).1,
           (ship_positions size n.toNat r k).2) ∧
    (markShips size (ship_positions size n.toNat r k).1).length = size * size ∧
    (ship_positions size n.toNat r k).1.length = n.toNat ∧
    (ship_positions size n.toNat r k).1.Nodup ∧
    trueCount size (markShips size (ship_positions size n.toNat r k).1) = n.toNat ∧
    (∀ x y, x < size → y < size →
      (boardGet size (markShips size (ship_positions size n.toNat r k).1) x y = true ↔
        ((x, y) : Cell) ∈ (ship_positions size n.toNat r k).1)) := by
  have hlen : n.toNat ≤ (cellsRM size).length := by
    rw [cellsRM_length]; omega
  obtain ⟨hslen, hsnd, hssub, _⟩ :=
    sampleCells_spec r n.toNat (cellsRM size) k hlen (cellsRM_nodup size)
  have hval : ∀ c ∈ (ship_positions size n.toNat r k).1, c.1 < size ∧ c.2 < size := by
    intro c hc
    have := hssub c hc
    rcases c with ⟨x, y⟩
    exact (cellsRM_mem size x y).mp this
  have hvalf : ∀ c ∈ (ship_positions size n.toNat r k).1, flat size c < size * size :=
    fun c hc => flat_lt size c (hval c hc).1 (hval c hc).2
  refine ⟨?_, markShips_length size _, hslen, hsnd,
    (trueCount_markShips size _ hval hsnd).trans hslen, ?_⟩
  · rw [generate_board, if_pos ⟨h0, h1⟩]
  · intro x y hx hy
    rw [show boardGet size (markShips size (ship_positions size n.toNat r k).1) x y =
        (markShips size (ship_positions size n.toNat r k).1).getD (flat size (x, y)) false
      from rfl]
    rw [markShips_getD size _ hvalf (flat size (x, y))]
    constructor
    · intro hany
      rcases List.any_eq_true.mp hany with ⟨c, hc, hci⟩
      have hceq : flat size c = flat size (x, y) := by simpa using hci
      have := flat_inj size c (x, y) (hval c hc).2 hy hceq
      rwa [← this]
    · intro hmem
      exact List.any_eq_true.mpr ⟨(x, y), hmem, by simp⟩

/-- Witness for C5: sampling 2 ships on a `2×2` grid marks exactly 2 cells. -/
theorem claim5_generate_board_witness :
    trueCount 2 (markShips 2 (ship_positions 2 (2 : ℤ).toNat stream2a 0).1) = 2 := by
  have h := claim5_generate_board 2 2 stream2a 0 (by decide) (by decide)
  exact h.2.2.2.2.1

/-! ## Termination and boundedness of the shared loop (claim C3) -/

/-- With exactly `a` rejections' worth of fuel plus one, the rejection loop
succeeds as soon as the draw pair `a` attempts ahead is fresh. -/
theorem findFresh_succeeds (size : ℕ) (r : RSrc) (tried : List Cell) :
    ∀ (a k : ℕ),
      ((toIdx size (r (k + 2 * a)), toIdx size (r (k + 2 * a + 1))) : Cell) ∉ tried →
      ∃ c k1, findFresh size r tried (a + 1) k = some (c, k1)
  | 0, k, h => by
    simp only [Nat.mul_zero, Nat.add_zero] at h
    exact ⟨_, _, by rw [findFresh, if_neg h]⟩
  | a + 1, k, h => by
    by_cases hmem : ((toIdx size (r k), toIdx size (r (k + 1))) : Cell) ∈ tried
    · obtain ⟨c, k1, hf⟩ := findFresh_succeeds size r tried a (k + 2) (by
        have harith : k + 2 + 2 * a = k + 2 * (a + 1) := by ring
        rw [harith, show k + 2 * (a + 1) + 1 = k + 2 * (a + 1) + 1 from rfl]
        exact h)
      exact ⟨c, k1, by rw [findFresh, if_pos hmem]; exact hf⟩
    · exact ⟨_, _, by rw [findFresh, if_neg hmem]⟩

theorem simStep_mono (size : ℕ) (board : List Bool) (fp fn : ℚ) (r : RSrc)
    (f f' : ℕ) (hle : f ≤ f') (s s' : SimState)
    (h : simStep size board fp fn r f s = some s') :
    simStep size board fp fn r f' s = some s' := by
  rcases (simStep_some size board fp fn r f s s').mp h with ⟨c, k1, hff, rfl⟩
  exact (simStep_some size board fp fn r f' s _).mpr
    ⟨c, k1, findFresh_mono size r _ f f' s.pos (c, k1) hle hff, rfl⟩

theorem runLoop_mono (size num_ships : ℕ) (board : List Bool) (fp fn : ℚ)
    (r : RSrc) (f f' : ℕ) (hle : f ≤ f') : ∀ (n : ℕ) (s t : SimState),
    runLoop size num_ships board fp fn r f n s = some t →
    runLoop size num_ships board fp fn r f' n s = some t
  | 0, s, t, h => h
  | n + 1, s, t, h => by
    rw [runLoop] at h ⊢
    cases hs : simStep size board fp fn r f s with
    | none => rw [hs] at h; exact absurd h (by simp)
    | some s' =>
      rw [hs] at h
      simp only [Option.some_bind] at h
      rw [simStep_mono size board fp fn r f f' hle s s' hs]
      simp only [Option.some_bind]
      by_cases hd : bothDone size num_ships board s' = true
      · rwa [if_pos hd] at h ⊢
      · rw [if_neg hd] at h ⊢
        exact runLoop_mono size num_ships board fp fn r f f' hle n s' t h

/-- A valid cell outside the tried set exists while the tried set is not yet
the whole grid. -/
theorem exists_fresh_cell (size : ℕ) (tried : List Cell) (hnd : tried.Nodup)
    (_hval : ∀ c ∈ tried, c.1 < size ∧ c.2 < size)
    (hcard : tried.length < size * size) :
    ∃ x y, x < size ∧ y < size ∧ ((x, y) : Cell) ∉ tried := by
  by_contra hno
  push_neg at hno
  have hsub : (cellsRM size).toFinset ⊆ tried.toFinset := by
    intro c hc
    rcases c with ⟨x, y⟩
    have hmem := (cellsRM_mem size x y).mp (List.mem_toFinset.mp hc)
    exact List.mem_toFinset.mpr (hno x y hmem.1 hmem.2)
  have h1 : (cellsRM size).toFinset.card = size * size := by
    rw [List.toFinset_card_of_nodup (cellsRM_nodup size), cellsRM_length]
  have h2 : tried.toFinset.card = tried.length := List.toFinset_card_of_nodup hnd
  have := Finset.card_le_card hsub
  omega

/-- The structural invariant of the loop state after `j` iterations: the
next draw position is even, the tried set is a duplicate-free set of `j`
valid cells, and the recorded grids keep their full length. -/
def StateInv (size j : ℕ) (s : SimState) : Prop :=
  s.pos % 2 = 0 ∧ s.tried_c.Nodup ∧
    (∀ c ∈ s.tried_c, c.1 < size ∧ c.2 < size) ∧
    s.tried_c.length = j ∧ s.c_found.length = size * size ∧
    s.q_found.length = size * size

theorem stateInv_init (size : ℕ) : StateInv size 0 (initState size) := by
  refine ⟨rfl, List.nodup_nil, ?_, rfl, by simp [initState], by simp [initState]⟩
  intro c hc
  exact absurd hc (List.not_mem_nil c)

theorem stateInv_step (size j : ℕ) (board : List Bool) (fp fn : ℚ) (r : RSrc)
    (fuel : ℕ) (s s' : SimState) (hsize : 0 < size)
    (h : simStep size board fp fn r fuel s = some s')
    (hinv : StateInv size j s) : StateInv size (j + 1) s' := by
  rcases (simStep_some size board fp fn r fuel s s').mp h with ⟨c, k1, hff, rfl⟩
  obtain ⟨hfresh, ⟨a, ha⟩, hvalc⟩ := findFresh_some size r s.tried_c fuel s.pos c k1 hff
  obtain ⟨hvc1, hvc2⟩ := hvalc hsize
  refine ⟨?_, ?_, ?_, ?_, ?_, ?_⟩
  · rw [stepOf_next_pos, ha]
    have hpe := hinv.1
    omega
  · rw [stepOf_next_tried]
    exact List.nodup_cons.mpr ⟨hfresh, hinv.2.1⟩
  · rw [stepOf_next_tried]
    intro d hd
    rcases List.mem_cons.mp hd with rfl | hd2
    · exact ⟨hvc1, hvc2⟩
    · exact hinv.2.2.1 d hd2
  · rw [stepOf_next_tried]
    simp [hinv.2.2.2.1]
  · rw [stepOf_next_c_found, List.length_set]
    exact hinv.2.2.2.2.1
  · rw [stepOf_next_q_found, List.length_set]
    exact hinv.2.2.2.2.2

theorem runLoop_terminates (size num_ships : ℕ) (board : List Bool)
    (fp fn : ℚ) (r : RSrc) (hfair : FairStream size r) :
    ∀ (n j : ℕ) (s : SimState), StateInv size j s → j + n ≤ size * size →
    ∃ fuel t, runLoop size num_ships board fp fn r fuel n s = some t
  | 0, _, s, _, _ => ⟨0, s, rfl⟩
  | n + 1, j, s, hinv, hbound => by
    have hsize : 0 < size := by
      rcases Nat.eq_zero_or_pos size with h0 | h
      · exact absurd hbound (by rw [h0]; simp)
      · exact h
    obtain ⟨x, y, hx, hy, hfresh⟩ := exists_fresh_cell size s.tried_c hinv.2.1
      hinv.2.2.1 (by have := hinv.2.2.2.1; omega)
    obtain ⟨jj, hjj, hxx, hyy⟩ := hfair (s.pos / 2) x y hx hy
    have hposeven : s.pos % 2 = 0 := hinv.1
    have hcell : ((toIdx size (r (s.pos + 2 * (jj - s.pos / 2))),
        toIdx size (r (s.pos + 2 * (jj - s.pos / 2) + 1))) : Cell) ∉ s.tried_c := by
      have harith : s.pos + 2 * (jj - s.pos / 2) = 2 * jj := by omega
      rw [harith, hxx, hyy]
      exact hfresh
    obtain ⟨c, k1, hff⟩ :=
      findFresh_succeeds size r s.tried_c (jj - s.pos / 2) s.pos hcell
    have hstep : simStep size board fp fn r (jj - s.pos / 2 + 1) s =
        some (stepOf size board fp fn r s c k1).next :=
      (simStep_some size board fp fn r _ s _).mpr ⟨c, k1, hff, rfl⟩
    have hinv2 : StateInv size (j + 1) (stepOf size board fp fn r s c k1).next :=
      stateInv_step size j board fp fn r _ s _ hsize hstep hinv
    by_cases hd : bothDone size num_ships board
      (stepOf size board fp fn r s c k1).next = true
    · refine ⟨jj - s.pos / 2 + 1, (stepOf size board fp fn r s c k1).next, ?_⟩
      rw [runLoop, hstep]
      simp only [Option.some_bind]
      rw [if_pos hd]
    · obtain ⟨f2, t, hrest⟩ := runLoop_terminates size num_ships board fp fn r
        hfair n (j + 1) _ hinv2 (by omega)
      refine ⟨max (jj - s.pos / 2 + 1) f2, t, ?_⟩
      rw [runLoop,
        simStep_mono size board fp fn r _ _ (le_max_left _ _) s _ hstep]
      simp only [Option.some_bind]
      rw [if_neg hd]
      exact runLoop_mono size num_ships board fp fn r f2 _ (le_max_right _ _)
        n _ t hrest

/-- C3: for every configuration, the simulation terminates whenever the
random source is fair (every coordinate pair keeps reappearing — the
almost-sure behaviour of genuine randomness; without it the classical
`while True` rejection loop itself need not terminate), and on every
completed run each searcher has made at most `size*size` guesses. -/
theorem claim3_bounded_termination (size num_ships : ℕ) (board : List Bool)
    (fp fn : ℚ) (r : RSrc) :
    (FairStream size r →
      ∃ fuel t, runSim size num_ships board fp fn r fuel = some t) ∧
    (∀ fuel t, runSim size num_ships board fp fn r fuel = some t →
      t.guesses_c ≤ size * size ∧ t.guesses_q ≤ size * size) := by
  constructor
  · intro hfair
    exact runLoop_terminates size num_ships board fp fn r hfair (size * size) 0
      (initState size) (stateInv_init size) (by omega)
  · intro fuel t h
    obtain ⟨k, hk, hiter, _⟩ := runLoop_to_runIter size num_ships board fp fn r
      fuel (size * size) (initState size) t h
    have hg := runIter_guesses size board fp fn r fuel k (initState size) t hiter
    simp only [initState, Nat.zero_add] at hg
    omega

theorem toIdx_frac (size a : ℕ) (ha : a < size) :
    toIdx size ((a : ℚ) / size) = a := by
  have hs : (size : ℚ) ≠ 0 := Nat.cast_ne_zero.mpr (by omega)
  rw [toIdx, div_mul_cancel₀ _ hs, Int.floor_natCast]
  simp only [Int.toNat_natCast]
  exact Nat.min_eq_left (by omega)

/-- The cycling stream really is fair. -/
theorem fair_cycleStream (size : ℕ) : FairStream size (cycleStream size) := by
  intro m x y hx hy
  have hs2 : 0 < size * size := Nat.mul_pos (by omega) (by omega)
  have hflt : x * size + y < size * size := flat_lt size (x, y) hx hy
  refine ⟨m * (size * size) + (x * size + y), ?_, ?_, ?_⟩
  · calc m = m * 1 := by ring
      _ ≤ m * (size * size) := Nat.mul_le_mul_left m hs2
      _ ≤ m * (size * size) + (x * size + y) := Nat.le_add_right _ _
  · rw [cycleStream]
    have h2 : 2 * (m * (size * size) + (x * size + y)) % 2 = 0 := by omega
    rw [if_pos h2]
    have hdiv : 2 * (m * (size * size) + (x * size + y)) / 2 =
        m * (size * size) + (x * size + y) := by omega
    rw [hdiv]
    have hmod : (m * (size * size) + (x * size + y)) % (size * size) =
        x * size + y := by
      rw [Nat.add_comm, Nat.add_mul_mod_self_right]
      exact Nat.mod_eq_of_lt hflt
    rw [hmod]
    have hxy : (x * size + y) / size = x := by
      rw [Nat.add_comm, Nat.mul_comm x size,
        Nat.add_mul_div_left _ _ (by omega : 0 < size), Nat.div_eq_of_lt hy]
      omega
    rw [hxy]
    exact toIdx_frac size x hx
  · rw [cycleStream]
    have h2 : (2 * (m * (size * size) + (x * size + y)) + 1) % 2 = 1 := by omega
    rw [if_neg (by omega)]
    have hdiv : (2 * (m * (size * size) + (x * size + y)) + 1) / 2 =
        m * (size * size) + (x * size + y) := by omega
    rw [hdiv]
    have hmod : (m * (size * size) + (x * size + y)) % (size * size) =
        x * size + y := by
      rw [Nat.add_comm, Nat.add_mul_mod_self_right]
      exact Nat.mod_eq_of_lt hflt
    rw [hmod]
    have hxy : (x * size + y) % size = y := by
      rw [Nat.add_comm, Nat.mul_comm x size, Nat.add_mul_mod_self_left]
      exact Nat.mod_eq_of_lt hy
    rw [hxy]
    exact toIdx_frac size y hy

/-- Witness for C3: a concrete fair stream on a concrete configuration
(the run terminates), and a concrete completed run stays within the bound. -/
theorem claim3_bounded_termination_witness :
    (∃ fuel t, runSim 2 1 board2a 0 0 (cycleStream 2) fuel = some t) ∧
    ((runSim 2 1 board2a 0 0 (cycleStream 2) 3).getD (initState 2)).guesses_c ≤ 4 := by
  constructor
  · exact (claim3_bounded_termination 2 1 board2a 0 0 (cycleStream 2)).1
      (fair_cycleStream 2)
  · have h : runSim 2 1 board2a 0 0 (cycleStream 2) 3 =
        some ((runSim 2 1 board2a 0 0 (cycleStream 2) 3).getD (initState 2)) := by
      with_unfolding_all decide
    exact ((claim3_bounded_termination 2 1 board2a 0 0 (cycleStream 2)).2 3 _ h).1

/-! ## The 5×5 three-target scenario (claim C8) -/

theorem stateInv_runIter (size : ℕ) (board : List Bool) (fp fn : ℚ) (r : RSrc)
    (fuel : ℕ) (hsize : 0 < size) : ∀ (k j : ℕ) (s t : SimState),
    runIter size board fp fn r fuel k s = some t → StateInv size j s →
    StateInv size (j + k) t
  | 0, j, s, t, h, hinv => by
    simp only [runIter, Option.some.injEq] at h
    simpa [← h] using hinv
  | k + 1, j, s, t, h, hinv => by
    rcases (runIter_succ_front size board fp fn r fuel k s t).mp h with ⟨s', hs', ht⟩
    have hinv2 := stateInv_step size j board fp fn r fuel s s' hsize hs' hinv
    have := stateInv_runIter size board fp fn r fuel hsize k (j + 1) s' t ht hinv2
    refine ⟨this.1, this.2.1, this.2.2.1, ?_, this.2.2.2.2⟩
    rw [this.2.2.2.1]
    omega

/-- Under zero noise and a genuine stream, the classical record grid holds
the true occupancy at every cell the classical searcher has probed. -/
theorem cfound_correct_runIter (size : ℕ) (board : List Bool) (r : RSrc)
    (fuel : ℕ) (h0 : ∀ k, 0 ≤ r k) (hsize : 0 < size) :
    ∀ (k j : ℕ) (s t : SimState),
    runIter size board 0 0 r fuel k s = some t → StateInv size j s →
    (∀ c ∈ s.tried_c, s.c_found.getD (flat size c) false = boardGet size board c.1 c.2) →
    ∀ c ∈ t.tried_c, t.c_found.getD (flat size c) false = boardGet size board c.1 c.2
  | 0, _, s, t, h, _, hrec => by
    simp only [runIter, Option.some.injEq] at h
    simpa [← h] using hrec
  | k + 1, j, s, t, h, hinv, hrec => by
    rcases (runIter_succ_front size board 0 0 r fuel k s t).mp h with ⟨s', hs', ht⟩
    have hinv2 := stateInv_step size j board 0 0 r fuel s s' hsize hs' hinv
    rcases (simStep_some size board 0 0 r fuel s s').mp hs' with ⟨c, k1, hff, rfl⟩
    obtain ⟨hfresh, _, hvalc⟩ := findFresh_some size r s.tried_c fuel s.pos c k1 hff
    obtain ⟨hvc1, hvc2⟩ := hvalc hsize
    have hflatc : flat size c < size * size := flat_lt size c hvc1 hvc2
    have hcread : (stepOf size board 0 0 r s c k1).cRead =
        boardGet size board c.1 c.2 := by
      show (noisy_sensor size board c.1 c.2 0 0 r k1).1 = _
      rw [noisy_sensor_zero_noise size board c.1 c.2 r k1 (h0 k1)]
    have hrec2 : ∀ d ∈ (stepOf size board 0 0 r s c k1).next.tried_c,
        (stepOf size board 0 0 r s c k1).next.c_found.getD (flat size d) false =
          boardGet size board d.1 d.2 := by
      intro d hd
      rw [stepOf_next_c_found]
      rcases List.mem_cons.mp (by rwa [stepOf_next_tried] at hd) with rfl | hd2
      · rw [getD_set_self _ _ _ _ (by rw [hinv.2.2.2.2.1]; exact hflatc), hcread]
      · have hdval := hinv.2.2.1 d hd2
        have hne : flat size c ≠ flat size d := fun heq =>
          hfresh (by rw [flat_inj size c d hvc2 hdval.2 heq]; exact hd2)
        rw [getD_set_ne _ _ _ _ _ hne]
        exact hrec d hd2
    exact cfound_correct_runIter size board r fuel h0 hsize k (j + 1) _ t ht hinv2 hrec2

/-- A duplicate-free set of `size*size` valid cells is the whole grid. -/
theorem tried_complete (size : ℕ) (tried : List Cell) (hnd : tried.Nodup)
    (hval : ∀ c ∈ tried, c.1 < size ∧ c.2 < size)
    (hlen : tried.length = size * size) :
    ∀ x y, x < size → y < size → ((x, y) : Cell) ∈ tried := by
  intro x y hx hy
  by_contra hmem
  have hxy : ((x, y) : Cell) ∈ (cellsRM size).toFinset :=
    List.mem_toFinset.mpr ((cellsRM_mem size x y).mpr ⟨hx, hy⟩)
  have hsub : tried.toFinset ⊆ (cellsRM size).toFinset.erase (x, y) := by
    intro c hc
    refine Finset.mem_erase.mpr ⟨?_, ?_⟩
    · rintro rfl
      exact hmem (List.mem_toFinset.mp hc)
    · rcases c with ⟨a, b⟩
      have := hval _ (List.mem_toFinset.mp hc)
      exact List.mem_toFinset.mpr ((cellsRM_mem size a b).mpr this)
  have hcard := Finset.card_le_card hsub
  rw [List.toFinset_card_of_nodup hnd, hlen,
    Finset.card_erase_of_mem hxy,
    List.toFinset_card_of_nodup (cellsRM_nodup size), cellsRM_length] at hcard
  have hpos := Nat.mul_pos (by omega : 0 < size) (by omega : 0 < size)
  omega

/-- Under zero noise and a genuine stream, one loop iteration updates the
guided searcher's belief and record exactly as the stream-independent
function `gStep` — the guided trajectory does not depend on the seed. -/
theorem guided_step_eq (size : ℕ) (board : List Bool) (r : RSrc) (fuel : ℕ)
    (h0 : ∀ k, 0 ≤ r k) (s s' : SimState)
    (h : simStep size board 0 0 r fuel s = some s') :
    (s'.prob, s'.q_found) = gStep size board (s.prob, s.q_found) := by
  rcases (simStep_some size board 0 0 r fuel s s').mp h with ⟨c, k1, _, rfl⟩
  have hread : (stepOf size board 0 0 r s c k1).qRead =
      boardGet size board (argmaxIdx s.prob / size) (argmaxIdx s.prob % size) := by
    show (noisy_sensor size board (argmaxIdx s.prob / size) (argmaxIdx s.prob % size)
      0 0 r (noisy_sensor size board c.1 c.2 0 0 r k1).2).1 = _
    rw [noisy_sensor_zero_noise size board _ _ r _ (h0 _)]
  refine Prod.ext_iff.mpr ⟨?_, ?_⟩
  · show (stepOf size board 0 0 r s c k1).next.prob = _
    rw [stepOf_next_prob, stepOf_denom, stepOf_preProb, hread]
    simp only [gStep]
    rw [Nat.div_add_mod']
  · show (stepOf size board 0 0 r s c k1).next.q_found = _
    rw [stepOf_next_q_found, hread]
    simp only [gStep]
    rw [Nat.div_add_mod']

theorem guided_runIter (size : ℕ) (board : List Bool) (r : RSrc) (fuel : ℕ)
    (h0 : ∀ k, 0 ≤ r k) : ∀ (k : ℕ) (s t : SimState),
    runIter size board 0 0 r fuel k s = some t →
    (t.prob, t.q_found) = (gStep size board)^[k] (s.prob, s.q_found)
  | 0, s, t, h => by
    simp only [runIter, Option.some.injEq] at h
    simp [← h]
  | k + 1, s, t, h => by
    rcases (runIter_succ_front size board 0 0 r fuel k s t).mp h with ⟨s', hs', ht⟩
    have h1 := guided_step_eq size board r fuel h0 s s' hs'
    have h2 := guided_runIter size board r fuel h0 k s' t ht
    rw [Function.iterate_succ_apply, ← h1, h2]

theorem gIter_eq_iterate (size : ℕ) (board : List Bool) : ∀ k : ℕ,
    gIter size board k =
      (gStep size board)^[k] ((initState size).prob, (initState size).q_found)
  | 0 => rfl
  | k + 1 => by
    rw [gIter, gIter_eq_iterate size board k, Function.iterate_succ_apply']

/-- On `board5` a recorded-hit count of at least 3 means all three target
cells are recorded as hits. -/
theorem hitCount_board5 (found : List Bool) (h : 3 ≤ hitCount 5 found board5) :
    found.getD 0 false = true ∧ found.getD 12 false = true ∧
      found.getD 24 false = true := by
  have hchar : ∀ i < 25, board5.getD i false = true → i = 0 ∨ i = 12 ∨ i = 24 := by
    with_unfolding_all decide
  have hsub : (Finset.range (5 * 5)).filter
      (fun i => found.getD i false = true ∧ board5.getD i false = true) ⊆
      ({0, 12, 24} : Finset ℕ) := by
    intro i hi
    rcases Finset.mem_filter.mp hi with ⟨hir, hconj⟩
    rcases hchar i (by simpa using Finset.mem_range.mp hir) hconj.2 with rfl | rfl | rfl <;>
      simp
  have heq : (Finset.range (5 * 5)).filter
      (fun i => found.getD i false = true ∧ board5.getD i false = true) =
      ({0, 12, 24} : Finset ℕ) :=
    Finset.eq_of_subset_of_card_le hsub (by
      have hhc : hitCount 5 found board5 = ((Finset.range (5 * 5)).filter
        (fun i => found.getD i false = true ∧ board5.getD i false = true)).card := rfl
      have hc3 : ({0, 12, 24} : Finset ℕ).card = 3 := by decide
      omega)
  refine ⟨?_, ?_, ?_⟩
  · have h0 : (0 : ℕ) ∈ (Finset.range (5 * 5)).filter
        (fun i => found.getD i false = true ∧ board5.getD i false = true) := by
      rw [heq]; simp
    exact (Finset.mem_filter.mp h0).2.1
  · have h12 : (12 : ℕ) ∈ (Finset.range (5 * 5)).filter
        (fun i => found.getD i false = true ∧ board5.getD i false = true) := by
      rw [heq]; simp
    exact (Finset.mem_filter.mp h12).2.1
  · have h24 : (24 : ℕ) ∈ (Finset.range (5 * 5)).filter
        (fun i => found.getD i false = true ∧ board5.getD i false = true) := by
      rw [heq]; simp
    exact (Finset.mem_filter.mp h24).2.1

set_option maxRecDepth 100000 in
set_option maxHeartbeats 4000000 in
/-- The concrete zero-noise guided trajectory on `board5`: within the
bounded 25 iterations it records hits at `(0,0)` and `(2,2)` but never
probes `(4,4)` (flat index 24). -/
theorem gIter_board5_facts :
    (∀ k ∈ List.range 26, (gIter 5 board5 k).2.getD 24 false = false) ∧
    (gIter 5 board5 25).2.getD 0 false = true ∧
    (gIter 5 board5 25).2.getD 12 false = true := by
  refine ⟨?_, ?_, ?_⟩ <;> with_unfolding_all decide

/-- C8 amended: in the 5×5 scenario with targets `(0,0), (2,2), (4,4)` and
zero noise, for every seed on which the program terminates the CLASSICAL
searcher records hits at all three targets within its at most 25 guesses;
but the guided searcher — whose zero-noise trajectory is the same for every
seed — records hits at `(0,0)` and `(2,2)` only and never probes `(4,4)`:
its boost rule re-selects already-probed cells and the run ends after the
full 25 iterations with the third target undetected. -/
theorem claim8_amended_scenario (r : RSrc) (fuel : ℕ) (h0 : ∀ k, 0 ≤ r k)
    (t : SimState) (h : runSim 5 3 board5 0 0 r fuel = some t) :
    (t.c_found.getD 0 false = true ∧ t.c_found.getD 12 false = true ∧
      t.c_found.getD 24 false = true) ∧
    t.q_found.getD 0 false = true ∧ t.q_found.getD 12 false = true ∧
      t.q_found.getD 24 false = false ∧ t.guesses_q = 25 := by
  obtain ⟨k, hk, hiter, hdisj⟩ := runLoop_to_runIter 5 3 board5 0 0 r fuel
    (5 * 5) (initState 5) t h
  have hguided := guided_runIter 5 board5 r fuel h0 k (initState 5) t hiter
  have hgi : (t.prob, t.q_found) = gIter 5 board5 k := by
    rw [hguided, gIter_eq_iterate]
  have hqf : t.q_found = (gIter 5 board5 k).2 := congrArg Prod.snd hgi
  have hq24 : t.q_found.getD 24 false = false := by
    rw [hqf]
    exact gIter_board5_facts.1 k (List.mem_range.mpr (by omega))
  have hnotdone : ¬ bothDone 5 3 board5 t = true := by
    intro hd
    rcases (bothDone_iff 5 3 board5 t).mp hd with ⟨_, hq⟩
    have h24 := (hitCount_board5 t.q_found hq).2.2
    rw [hq24] at h24
    exact absurd h24 (by simp)
  have hk25 : k = 5 * 5 := by
    rcases hdisj with hd | h25
    · exact absurd hd hnotdone
    · exact h25
  subst hk25
  have hinv : StateInv 5 (0 + 5 * 5) t :=
    stateInv_runIter 5 board5 0 0 r fuel (by omega) (5 * 5) 0 (initState 5) t
      hiter (stateInv_init 5)
  have hrec : ∀ c ∈ t.tried_c,
      t.c_found.getD (flat 5 c) false = boardGet 5 board5 c.1 c.2 :=
    cfound_correct_runIter 5 board5 r fuel h0 (by omega) (5 * 5) 0 (initState 5) t
      hiter (stateInv_init 5) (by intro c hc; exact absurd hc (List.not_mem_nil c))
  have hcover := tried_complete 5 t.tried_c hinv.2.1 hinv.2.2.1
    (by have := hinv.2.2.2.1; omega)
  have hguesses : t.guesses_q = 25 := by
    have hg := runIter_guesses 5 board5 0 0 r fuel (5 * 5) (initState 5) t hiter
    simp only [initState, Nat.zero_add] at hg
    omega
  refine ⟨⟨?_, ?_, ?_⟩, ?_, ?_, hq24, hguesses⟩
  · have := hrec (0, 0) (hcover 0 0 (by omega) (by omega))
    rw [show (0 : ℕ) = flat 5 (0, 0) from rfl, this]
    with_unfolding_all decide
  · have := hrec (2, 2) (hcover 2 2 (by omega) (by omega))
    rw [show (12 : ℕ) = flat 5 (2, 2) from rfl, this]
    with_unfolding_all decide
  · have := hrec (4, 4) (hcover 4 4 (by omega) (by omega))
    rw [show (24 : ℕ) = flat 5 (4, 4) from rfl, this]
    with_unfolding_all decide
  · rw [hqf]
    exact gIter_board5_facts.2.1
  · rw [hqf]
    exact gIter_board5_facts.2.2

theorem stream5_nonneg : ∀ k, 0 ≤ stream5 k := by
  intro k
  rw [stream5]
  split
  · positivity
  · split
    · positivity
    · exact le_refl 0

set_option maxRecDepth 100000 in
set_option maxHeartbeats 4000000 in
/-- Witness for the amended C8: the concrete run on `stream5` terminates
and the theorem applies to it. -/
theorem claim8_amended_scenario_witness :
    ((runSim 5 3 board5 0 0 stream5 2).getD (initState 5)).c_found.getD 24 false = true := by
  have h : runSim 5 3 board5 0 0 stream5 2 =
      some ((runSim 5 3 board5 0 0 stream5 2).getD (initState 5)) := by
    with_unfolding_all decide
  exact (claim8_amended_scenario stream5 2 stream5_nonneg _ h).1.2.2

set_option maxRecDepth 100000 in
set_option maxHeartbeats 4000000 in
/-- C8 counterexample: a concrete terminating seed (`stream5`) on the 5×5
scenario where the guided searcher has made all 25 guesses and still
records no hit at `(4,4)` — only 2 of the 3 targets — while the classical
searcher has found all 3. -/
theorem claim8_counterexample :
    (runSim 5 3 board5 0 0 stream5 2).isSome = true ∧
    ((runSim 5 3 board5 0 0 stream5 2).getD (initState 5)).guesses_q = 25 ∧
    ((runSim 5 3 board5 0 0 stream5 2).getD
      (initState 5)).q_found.getD 24 false = false ∧
    hitCount 5 ((runSim 5 3 board5 0 0 stream5 2).getD
      (initState 5)).q_found board5 = 2 ∧
    hitCount 5 ((runSim 5 3 board5 0 0 stream5 2).getD
      (initState 5)).c_found board5 = 3 := by
  refine ⟨?_, ?_, ?_, ?_, ?_⟩ <;> with_unfolding_all decide

end QBR
